import Mathlib

/-!
Shallow embedding of the branching core of the RouteOpt CVRP solver:
the branching operator (two-way and three-way imposition of branch
constraints, file add_brc.cpp), the candidate top-two selector
(candidate_selector_controller.hpp) and the three-way candidate scorer
(ml_candidate_selection.cpp).  Machine doubles are modelled as rationals;
the LP solver is modelled as the list of rows it holds.  Member functions
of BbNode whose bodies are not part of the sources (obtainBrcCoefficient,
obtainColIdxNotAllowByEdge, rmColByBranchInEnuMatrix) are abstracted into
a NodeOracle parameter or modelled from the specification, as indicated
on each definition.
-/

namespace RouteOpt

/-- An edge of the support graph: a pair of vertex indices. -/
abbrev Edge := Nat × Nat

/-- One arc bucket of the bucket graph: the list of heads reachable inside
the bin (bucket_arcs) and the list of (resource, head) jump arcs. -/
structure Bucket where
  bucket_arcs : List Nat
  jump_arcs : List (Nat × Nat)
deriving DecidableEq

/-- Row sense of an LP constraint. -/
inductive Sense where
  | le
  | eq
  | ge
deriving DecidableEq

/-- One LP row: sparse column indices, coefficients, sense and right-hand side. -/
structure LPRow where
  cind : List Nat
  cval : List ℚ
  sense : Sense
  rhs : ℚ
deriving DecidableEq

/-- The LP model owned by a node: number of columns, number of rows that
existed before any branching row of interest, and the rows added since. -/
structure LPModel where
  numCol : Nat
  baseRowCount : Nat
  rows : List LPRow
deriving DecidableEq

/-- Current row count of the model, as returned by getNumRow. -/
def numRow (m : LPModel) : Nat := m.baseRowCount + m.rows.length

/-- A column: the sequence of customers its route visits. -/
structure Col where
  col_seq : List Nat
deriving DecidableEq

/-- Sentinel row index of a branch constraint that owns no LP row. -/
def INVALID_BRC_INDEX : Int := -1

/-- A branch constraint, from add_brc.cpp: the edge it branches on, the LP
row index (or the sentinel) and the direction flag. -/
structure Brc where
  edge : Edge
  idx_brc : Int
  br_dir : Bool
deriving DecidableEq

/-- A branch-and-bound node, with the fields of BbNode read or written by
add_brc.cpp. -/
structure BbNode where
  idx : Nat
  if_root_node : Bool
  if_terminate : Bool
  if_in_enu_state : Bool
  cols : List Col
  solver : LPModel
  rccs : List Nat
  r1cs : List Nat
  brcs : List Brc
  value : ℚ
  last_gap : ℚ
  num_forward_bucket_arcs : Nat
  num_forward_jump_arcs : Nat
  num_backward_bucket_arcs : Nat
  num_backward_jump_arcs : Nat
  topological_order_forward : List Nat
  topological_order_backward : List Nat
  all_forward_buckets : List (List Bucket)
  all_backward_buckets : List (List Bucket)
  edge_map : List (Edge × ℚ)
  index_columns_in_enumeration_column_pool : List Nat
  cost_for_columns_in_enumeration_column_pool : List ℚ
  deleted_columns_in_enumeration_pool : List Bool
  valid_size : Nat
deriving DecidableEq

/-- Remove the first occurrence of the head j from a bucket_arcs list,
as the std find plus erase pair in deleteArcByFalseBranchConstraint does. -/
def eraseFirstArc (j : Nat) : List Nat → List Nat
  | [] => []
  | a :: t => if a = j then t else a :: eraseFirstArc j t

/-- Remove the first jump arc whose head is j, as the find_if plus erase
pair in deleteArcByFalseBranchConstraint does. -/
def eraseFirstJump (j : Nat) : List (Nat × Nat) → List (Nat × Nat)
  | [] => []
  | p :: t => if p.2 = j then t else p :: eraseFirstJump j t

/-- Per-bin body of deleteArcByFalseBranchConstraint (add_brc.cpp lines
21-40): if j is found among the bucket arcs its first occurrence is
erased, otherwise the first jump arc with head j, if any, is erased. -/
def delArcBucket (j : Nat) (b : Bucket) : Bucket :=
  if j ∈ b.bucket_arcs then
    { b with bucket_arcs := eraseFirstArc j b.bucket_arcs }
  else
    { b with jump_arcs := eraseFirstJump j b.jump_arcs }

/-- Replace the row of buckets of one vertex. -/
def setRow : List (List Bucket) → Nat → List Bucket → List (List Bucket)
  | [], _, _ => []
  | _ :: t, 0, r => r :: t
  | h :: t, Nat.succ n, r => h :: setRow t n r

/-- deleteArcByFalseBranchConstraint (add_brc.cpp lines 15-47): delete the
head e.2 from every bin of vertex e.1, then (the AGAIN loop after the swap)
the head e.1 from every bin of vertex e.2. -/
def deleteArcByFalseBranchConstraint (buckets : List (List Bucket)) (e : Edge) :
    List (List Bucket) :=
  let b1 := setRow buckets e.1 ((buckets.getD e.1 []).map (delArcBucket e.2))
  setRow b1 e.2 ((b1.getD e.2 []).map (delArcBucket e.1))

/-- Whether a bucket mentions the head j, in its bucket arcs or in its jump arcs. -/
def bucketHasHead (j : Nat) (b : Bucket) : Bool :=
  decide (j ∈ b.bucket_arcs) || b.jump_arcs.any (fun p => decide (p.2 = j))

/-- Whether no bin of a row of buckets mentions the head j. -/
def noArcRow (j : Nat) (row : List Bucket) : Bool :=
  row.all (fun b => !(bucketHasHead j b))

/-- Invariant I2 checker: no bucket of vertex i mentions j and no bucket of
vertex j mentions i. -/
def noArc (buckets : List (List Bucket)) (i j : Nat) : Bool :=
  noArcRow j (buckets.getD i []) && noArcRow i (buckets.getD j [])

/-- Number of jump arcs of a bin whose head is j. -/
def jumpCount (j : Nat) (l : List (Nat × Nat)) : Nat :=
  l.countP (fun p => decide (p.2 = j))

/-- Total number of times a bucket mentions the head j, over both lists. -/
def headCount (j : Nat) (b : Bucket) : Nat :=
  b.bucket_arcs.count j + jumpCount j b.jump_arcs

/-- The BbNode member functions whose bodies are outside the given sources;
the branching operator is parameterised over them. -/
structure NodeOracle where
  obtainBrcCoefficient : BbNode → Edge → List Nat × List ℚ
  obtainColIdxNotAllowByEdge : BbNode → Edge → List Nat
  rmEnuMask : List Bool → Brc → List Bool

/-- Modelled from the spec: Remove-LP-cols removes the columns with the
given indices from the LP model and from cols; the dummy column at index 0
is never among the indices because callers strip the leading sentinel.
The rows of the model are not renumbered here because no claim inspects
row contents after a column removal. -/
def rmLPCols (node : BbNode) (idxs : List Nat) : BbNode :=
  { node with
    cols := (node.cols.enum.filter (fun p => !(idxs.contains p.1))).map (fun p => p.2)
    solver := { node.solver with
      numCol := node.solver.numCol - (idxs.filter (fun i => decide (i < node.solver.numCol))).length } }

/-- Modelled from the spec: TestingDetail addBranchConstraint installs one
LP row with the given sparse coefficients, sense equal, and right-hand
side 1 on the true branch and 0 on the false branch. -/
def addBranchConstraint (inds : List Nat) (vals : List ℚ) (m : LPModel) (dir : Bool) : LPModel :=
  { m with rows := m.rows ++ [⟨inds, vals, Sense.eq, if dir then 1 else 0⟩] }

/-- The non-enumeration BbNode clone constructor (add_brc.cpp lines
805-868): copies columns, solver, cuts, branch constraints plus the new
one, value, gap and the forward buckets, and the backward buckets exactly
when symmetry is not assumed. The fresh index models the global
node_idx_counter increment. -/
def cloneNode (node : BbNode) (if_symmetry : Bool) (bf : Brc) (new_idx : Nat) : BbNode :=
  { idx := new_idx
    if_root_node := false
    if_terminate := false
    if_in_enu_state := false
    cols := node.cols
    solver := node.solver
    rccs := node.rccs
    r1cs := node.r1cs
    brcs := node.brcs ++ [bf]
    value := node.value
    last_gap := node.last_gap
    num_forward_bucket_arcs := node.num_forward_bucket_arcs
    num_forward_jump_arcs := node.num_forward_jump_arcs
    num_backward_bucket_arcs := if if_symmetry then 0 else node.num_backward_bucket_arcs
    num_backward_jump_arcs := if if_symmetry then 0 else node.num_backward_jump_arcs
    topological_order_forward := node.topological_order_forward
    topological_order_backward := if if_symmetry then [] else node.topological_order_backward
    all_forward_buckets := node.all_forward_buckets
    all_backward_buckets := if if_symmetry then [] else node.all_backward_buckets
    edge_map := []
    index_columns_in_enumeration_column_pool := []
    cost_for_columns_in_enumeration_column_pool := []
    deleted_columns_in_enumeration_pool := []
    valid_size := 0 }

/-- The enumeration-state BbNode clone constructor (add_brc.cpp lines
879-913): copies cuts, branch constraints plus the new one, gap, solver,
valid size, the enumeration pool index and cost lists, the deleted mask up
to the pool index size, the columns and the value; no buckets. -/
def cloneNodeEnu (node : BbNode) (bf : Brc) (new_idx : Nat) : BbNode :=
  { idx := new_idx
    if_root_node := false
    if_terminate := false
    if_in_enu_state := true
    cols := node.cols
    solver := node.solver
    rccs := node.rccs
    r1cs := node.r1cs
    brcs := node.brcs ++ [bf]
    value := node.value
    last_gap := node.last_gap
    num_forward_bucket_arcs := 0
    num_forward_jump_arcs := 0
    num_backward_bucket_arcs := 0
    num_backward_jump_arcs := 0
    topological_order_forward := []
    topological_order_backward := []
    all_forward_buckets := []
    all_backward_buckets := []
    edge_map := []
    index_columns_in_enumeration_column_pool := node.index_columns_in_enumeration_column_pool
    cost_for_columns_in_enumeration_column_pool := node.cost_for_columns_in_enumeration_column_pool
    deleted_columns_in_enumeration_pool :=
      node.deleted_columns_in_enumeration_pool.take
        node.index_columns_in_enumeration_column_pool.length
    valid_size := node.valid_size }

/-- The leading-sentinel strip applied before column removal: a leading
index 0 is dropped.  The empty case never arises on the paths where the
source runs it, because the callers abort there instead. -/
def stripLeadingZero : List Nat → List Nat
  | [] => []
  | s0 :: rest => if s0 = 0 then rest else s0 :: rest

/-- The true child of addBranchCutToUnsolved (add_brc.cpp lines 90-96): a
clone carrying the FORCE constraint on the reserved row, with that row
installed. -/
def trueChildTwoWay (O : NodeOracle) (if_symmetry : Bool) (node : BbNode)
    (info : Edge) (gidx : Nat) : BbNode :=
  let coef := O.obtainBrcCoefficient node info
  let node2 := cloneNode node if_symmetry ⟨info, (numRow node.solver : Int), true⟩ (gidx + 1)
  { node2 with solver := addBranchConstraint coef.1 coef.2 node2.solver true }

/-- The false child of addBranchCutToUnsolved (add_brc.cpp lines 98-130):
the node itself with the FORBID constraint appended under the sentinel row
index, the columns of the stripped coefficient support removed, the
forbidden arc deleted from the forward buckets and, when symmetry is not
assumed, from the backward buckets, and a fresh node index. -/
def falseChildTwoWay (O : NodeOracle) (if_symmetry : Bool) (node : BbNode)
    (info : Edge) (gidx : Nat) : BbNode :=
  let coef := O.obtainBrcCoefficient node info
  let nodeF := { node with
    if_root_node := false
    brcs := node.brcs ++ [⟨info, INVALID_BRC_INDEX, false⟩] }
  let nodeF := rmLPCols nodeF (stripLeadingZero coef.1)
  let nodeF := { nodeF with
    all_forward_buckets := deleteArcByFalseBranchConstraint nodeF.all_forward_buckets info
    all_backward_buckets :=
      if if_symmetry then nodeF.all_backward_buckets
      else deleteArcByFalseBranchConstraint nodeF.all_backward_buckets info }
  { nodeF with idx := gidx + 2 }

/-- addBranchCutToUnsolved (add_brc.cpp lines 62-131). The Option is none
exactly when the source would read solver_ind.front() on an empty vector.
On success it returns the node mutated in place as the false child, the
new value of the true-child slot, and the advanced node index counter. -/
def addBranchCutToUnsolved (O : NodeOracle) (if_symmetry : Bool) (gidx : Nat)
    (node : BbNode) (info : Edge) (slot : Option BbNode) :
    Option (BbNode × Option BbNode × Nat) :=
  if node.if_terminate then some (node, slot, gidx) else
  match (O.obtainBrcCoefficient node info).1 with
  | [] => none
  | _ :: _ =>
    some (falseChildTwoWay O if_symmetry node info gidx,
      some (trueChildTwoWay O if_symmetry node info gidx), gidx + 2)

/-- The conditional deleted-mask update of the enumeration branch (the
rmColByBranchInEnuMatrix call guarded by a non-empty pool); the matrix
regeneration itself touches only state outside this model. -/
def maskUpdate (poolEmpty : Bool) (O : NodeOracle) (bf : Brc) (n : BbNode) : BbNode :=
  if poolEmpty then n
  else
    { n with
      deleted_columns_in_enumeration_pool :=
        O.rmEnuMask n.deleted_columns_in_enumeration_pool bf }

/-- The true child of addBranchCutToUnsolvedInEnu (add_brc.cpp lines
181-204): an enumeration clone carrying the FORCE constraint under the
sentinel row index, with the stripped not-allowed columns removed and the
deleted mask updated when the pool is in use. -/
def trueChildEnu (O : NodeOracle) (node : BbNode) (info : Edge) (gidx : Nat) : BbNode :=
  let poolEmpty := node.index_columns_in_enumeration_column_pool.isEmpty
  let bfT : Brc := ⟨info, INVALID_BRC_INDEX, true⟩
  let node2 := cloneNodeEnu node bfT (gidx + 1)
  maskUpdate poolEmpty O bfT
    (rmLPCols node2 (stripLeadingZero (O.obtainColIdxNotAllowByEdge node info)))

/-- The false child of addBranchCutToUnsolvedInEnu (add_brc.cpp lines
206-228): the node itself with the FORBID constraint appended, the
stripped coefficient-support columns removed, the deleted mask updated
when the pool is in use, and a fresh node index. -/
def falseChildEnu (O : NodeOracle) (node : BbNode) (info : Edge) (gidx : Nat) : BbNode :=
  let poolEmpty := node.index_columns_in_enumeration_column_pool.isEmpty
  let bfF : Brc := ⟨info, INVALID_BRC_INDEX, false⟩
  let nodeF := { node with
    if_root_node := false
    brcs := node.brcs ++ [bfF] }
  let nodeF := maskUpdate poolEmpty O bfF
    (rmLPCols nodeF (stripLeadingZero (O.obtainBrcCoefficient node info).1))
  { nodeF with idx := gidx + 2 }

/-- addBranchCutToUnsolvedInEnu (add_brc.cpp lines 146-229). The Option is
none exactly when the source would read front() of an empty coefficient or
not-allowed index vector. -/
def addBranchCutToUnsolvedInEnu (O : NodeOracle) (gidx : Nat)
    (node : BbNode) (info : Edge) (slot : Option BbNode) :
    Option (BbNode × Option BbNode × Nat) :=
  if node.if_terminate then some (node, slot, gidx) else
  match (O.obtainBrcCoefficient node info).1 with
  | [] => none
  | _ :: _ =>
    match O.obtainColIdxNotAllowByEdge node info with
    | [] => none
    | _ :: _ =>
      some (falseChildEnu O node info gidx, some (trueChildEnu O node info gidx), gidx + 2)

/-- CVRPSolver imposeBranching (add_brc.cpp lines 243-280): resize the
children to two slots, point the first at the node itself, run the
branching detail appropriate to the enumeration state on the second slot,
drop the second slot if it is still null, and clear the edge map of the
node. -/
def imposeBranching (O : NodeOracle) (if_symmetry : Bool) (gidx : Nat)
    (node : BbNode) (brc : Edge) (children0 : List (Option BbNode)) :
    Option (List (Option BbNode) × Nat) :=
  let slot1 := children0.getD 1 none
  let r :=
    if node.if_in_enu_state then addBranchCutToUnsolvedInEnu O gidx node brc slot1
    else addBranchCutToUnsolved O if_symmetry gidx node brc slot1
  match r with
  | none => none
  | some (nodeF, slot1', gidx') =>
    let nodeF := { nodeF with edge_map := [] }
    match slot1' with
    | none => some ([some nodeF], gidx')
    | some t => some ([some nodeF, some t], gidx')

/-- The thread-wide limit on three-way rounds (add_brc.cpp line 291). -/
def MAX_3WAY_ROUNDS : Nat := 10

/-- Accumulate sparse coefficients into a dense column -> value function,
as the two loops writing tmp_val do in add_brc.cpp lines 687-694. -/
def addIntoF (g : Nat → ℚ) : List Nat → List ℚ → Nat → ℚ
  | i :: is, v :: vs => addIntoF (Function.update g i (g i + v)) is vs
  | _, _ => g

/-- The coefficient merge of the MIDDLE branch (add_brc.cpp lines 679-707):
sum the two sparse vectors into tmp_val, then emit the dummy column 0 with
coefficient 1 followed by every further column with a positive merged
coefficient. The guard is none where the source writes or reads out of
bounds. -/
def mergeMiddle (n : Nat) (i1 : List Nat) (v1 : List ℚ) (i2 : List Nat) (v2 : List ℚ) :
    Option (List Nat × List ℚ) :=
  if i1.all (fun i => decide (i < n)) && i2.all (fun i => decide (i < n))
      && decide (i1.length ≤ v1.length) && decide (i2.length ≤ v2.length) then
    let tmp := addIntoF (addIntoF (fun _ => 0) i1 v1) i2 v2
    let sel := (List.range' 1 (n - 1)).filter (fun k => decide (0 < tmp k))
    some (0 :: sel, (1 : ℚ) :: sel.map tmp)
  else none

/-- Branch A of imposeThreeBranching (add_brc.cpp lines 364-511): clone
with a FORCE constraint on e1, add its row, record a FORCE constraint on
e2, add its row. -/
def branchChildA (O : NodeOracle) (if_symmetry : Bool) (node : BbNode)
    (e1 e2 : Edge) (gidx : Nat) : BbNode :=
  let row1 : Int := numRow node.solver
  let c := cloneNode node if_symmetry ⟨e1, row1, true⟩ (gidx + 1)
  let p1 := O.obtainBrcCoefficient c e1
  let c := { c with solver := addBranchConstraint p1.1 p1.2 c.solver true }
  let row2 : Int := numRow c.solver
  let c := { c with brcs := c.brcs ++ [⟨e2, row2, true⟩] }
  let p2 := O.obtainBrcCoefficient c e2
  { c with solver := addBranchConstraint p2.1 p2.2 c.solver true }

/-- Branch B of imposeThreeBranching (add_brc.cpp lines 514-563): clone
with a FORBID constraint on e1, add its zero row, record a FORBID
constraint on e2, add its zero row. No bucket is touched. -/
def branchChildB (O : NodeOracle) (if_symmetry : Bool) (node : BbNode)
    (e1 e2 : Edge) (gidx : Nat) : BbNode :=
  let row1 : Int := numRow node.solver
  let c := cloneNode node if_symmetry ⟨e1, row1, false⟩ (gidx + 2)
  let p1 := O.obtainBrcCoefficient c e1
  let c := { c with solver := addBranchConstraint p1.1 p1.2 c.solver false }
  let row2 : Int := numRow c.solver
  let c := { c with brcs := c.brcs ++ [⟨e2, row2, false⟩] }
  let p2 := O.obtainBrcCoefficient c e2
  { c with solver := addBranchConstraint p2.1 p2.2 c.solver false }

/-- The MIDDLE child before its merged row is installed (add_brc.cpp lines
659-675): clone with the first constraint, then record the second
constraint against the same row. -/
def middleChildBase (if_symmetry : Bool) (node : BbNode) (e1 e2 : Edge) (gidx : Nat) : BbNode :=
  let row : Int := numRow node.solver
  let c := cloneNode node if_symmetry ⟨e1, row, true⟩ (gidx + 3)
  { c with brcs := c.brcs ++ [⟨e2, row, true⟩] }

/-- The MIDDLE child of imposeThreeBranching (add_brc.cpp lines 659-719):
the base clone plus the single merged row with sense equal and right-hand
side 1. -/
def middleChild (O : NodeOracle) (if_symmetry : Bool) (node : BbNode)
    (e1 e2 : Edge) (gidx : Nat) : Option BbNode :=
  let c := middleChildBase if_symmetry node e1 e2 gidx
  let p1 := O.obtainBrcCoefficient c e1
  let p2 := O.obtainBrcCoefficient c e2
  match mergeMiddle node.solver.numCol p1.1 p1.2 p2.1 p2.2 with
  | none => none
  | some cc =>
    some { c with solver :=
      { c.solver with rows := c.solver.rows ++ [⟨cc.1, cc.2, Sense.eq, 1⟩] } }

/-- Fallback child enforcing e1 = 1 and e2 = 0 (add_brc.cpp lines
728-758). Both recorded constraints carry the same reserved row index, as
in the source. -/
def fallbackChildC1 (O : NodeOracle) (if_symmetry : Bool) (node : BbNode)
    (e1 e2 : Edge) (gidx : Nat) : BbNode :=
  let row1 : Int := numRow node.solver
  let c := cloneNode node if_symmetry ⟨e1, row1, true⟩ (gidx + 3)
  let p1 := O.obtainBrcCoefficient c e1
  let c := { c with solver := addBranchConstraint p1.1 p1.2 c.solver true }
  let c := { c with brcs := c.brcs ++ [⟨e2, row1, false⟩] }
  let p2 := O.obtainBrcCoefficient c e2
  { c with solver := addBranchConstraint p2.1 p2.2 c.solver false }

/-- Fallback child enforcing e1 = 0 and e2 = 1 (add_brc.cpp lines
760-787). -/
def fallbackChildC2 (O : NodeOracle) (if_symmetry : Bool) (node : BbNode)
    (e1 e2 : Edge) (gidx : Nat) : BbNode :=
  let row2 : Int := numRow node.solver
  let c := cloneNode node if_symmetry ⟨e1, row2, false⟩ (gidx + 4)
  let p1 := O.obtainBrcCoefficient c e1
  let c := { c with solver := addBranchConstraint p1.1 p1.2 c.solver false }
  let c := { c with brcs := c.brcs ++ [⟨e2, row2, true⟩] }
  let p2 := O.obtainBrcCoefficient c e2
  { c with solver := addBranchConstraint p2.1 p2.2 c.solver true }

/-- CVRPSolver imposeThreeBranching (add_brc.cpp lines 282-792).  The
first component of the state pair is the running value of the thread-local
three_way_count, the second the node index counter; both are returned
advanced.  none models the assertion failure on an edge pair whose size is
not two and the out-of-bounds writes of the coefficient merge.  A
terminated node leaves the children buffer exactly as passed in, because
the early return precedes the clear. -/
def imposeThreeBranching (O : NodeOracle) (if_symmetry : Bool) (cnt gidx : Nat)
    (node : BbNode) (edgepair : List Edge) (children0 : List BbNode) :
    Option (BbNode × List BbNode × Nat × Nat) :=
  match edgepair with
  | [e1, e2] =>
    if node.if_terminate then some (node, children0, cnt, gidx) else
    let A := branchChildA O if_symmetry node e1 e2 gidx
    let B := branchChildB O if_symmetry node e1 e2 gidx
    let parent := { node with if_root_node := false }
    if cnt + 1 ≤ MAX_3WAY_ROUNDS then
      match middleChild O if_symmetry node e1 e2 gidx with
      | none => none
      | some C => some (parent, [A, B, C], cnt + 1, gidx + 3)
    else
      some (parent,
        [A, B, fallbackChildC1 O if_symmetry node e1 e2 gidx,
          fallbackChildC2 O if_symmetry node e1 e2 gidx],
        cnt + 1, gidx + 4)
  | _ => none

/-! Candidate selector: getTopTwoCandidates of
candidate_selector_controller.hpp, lines 312-499. -/

/-- Insert one element into a list kept in descending order of mapped
value, modelling one possible execution of the std sort with the
comparator of line 382. -/
def insertDesc {α : Type} (cmap : α → ℚ) (a : α) : List α → List α
  | [] => [a]
  | b :: t => if cmap b ≤ cmap a then a :: b :: t else b :: insertDesc cmap a t

/-- Sort a list in descending order of mapped value. -/
def sortDesc {α : Type} (cmap : α → ℚ) : List α → List α
  | [] => []
  | a :: t => insertDesc cmap a (sortDesc cmap t)

/-- Absolute value of a rational, written out as the source's std abs so
that it evaluates by kernel reduction; equal to the Mathlib absolute value
by ratAbs_eq_abs below. -/
def ratAbs (x : ℚ) : ℚ := if x < 0 then -x else x

/-- The tolerance of the sum-to-one test (line 400 of the selector). -/
def tol9 : ℚ := 1 / 1000000000

/-- Whether the mapped values of two candidates do not sum to one within
the tolerance. -/
def nonSumChk {α : Type} (cmap : α → ℚ) (a b : α) : Bool :=
  decide (tol9 < ratAbs (cmap a + cmap b - 1))

/-- Inner loop of the top-two scan: the first partner of a later position
whose value does not sum to one with the given candidate. -/
def findPartnerNS {α : Type} (cmap : α → ℚ) (a : α) (l : List α) : Option α :=
  l.find? (fun w => nonSumChk cmap a w)

/-- The double loop of lines 389-412: the first position pair, in order,
whose values do not sum to one within tolerance. -/
def findNonSumPair {α : Type} (cmap : α → ℚ) : List α → Option (α × α)
  | [] => none
  | a :: t =>
    match findPartnerNS cmap a t with
    | some b => some (a, b)
    | none => findNonSumPair cmap t

/-- BranchingTesting getTopTwoCandidates (lines 312-499): the availability
filter of the source is commented out, so the empty available list is
always replaced by the ranked list; that list is sorted by descending
mapped value; the first pair not summing to one is chosen, and otherwise
the chain of fallbacks returns the leading entries. -/
def getTopTwoCandidates {α : Type} (cmap : α → ℚ) (pairs : List α) : List α :=
  let available : List α := if List.length ([] : List α) < 2 then pairs else []
  let sorted := sortDesc cmap available
  match findNonSumPair cmap sorted with
  | some p => [p.1, p.2]
  | none =>
    match sorted with
    | a :: b :: _ => [a, b]
    | _ =>
      match pairs with
      | [] => []
      | [p] => [p]
      | p :: q :: _ => [p, q]

/-! Three-way candidate scorer: CVRPSolver getBestTwoEdges,
ml_candidate_selection.cpp lines 59-169 (the live VERSION 3 code). -/

/-- The skip condition of line 150: an entry is ignored unless both edge
values and the pair sum lie inside the fractional tolerance band. -/
def skipEntry (tol : ℚ) (oneMap : Edge → ℚ) (entry : (Edge × Edge) × ℚ) : Bool :=
  let v1 := oneMap entry.1.1
  let v2 := oneMap entry.1.2
  let s := entry.2
  decide (v1 < tol) || decide (1 - tol < v1) || decide (v2 < tol) || decide (1 - tol < v2) ||
    decide (s < tol) || decide (1 - tol < s)

/-- The composite score of lines 154-159. -/
def edgeScore (oneMap : Edge → ℚ) (entry : (Edge × Edge) × ℚ) : ℚ :=
  let v1 := oneMap entry.1.1
  let v2 := oneMap entry.1.2
  let s := entry.2
  (7 / 10) * min (min v1 (1 - v1)) (min v2 (1 - v2)) + (3 / 10) * (-(ratAbs (s - 3 / 2)))

/-- Initial best score of line 139. -/
def bestInit : ℚ := -((10 : ℚ) ^ 300)

/-- One iteration of the scan of lines 142-167. -/
def gbteStep (tol : ℚ) (oneMap : Edge → ℚ) (st : ℚ × List Edge)
    (entry : (Edge × Edge) × ℚ) : ℚ × List Edge :=
  if skipEntry tol oneMap entry then st
  else if st.1 < edgeScore oneMap entry then (edgeScore oneMap entry, [entry.1.1, entry.1.2])
  else st

/-- CVRPSolver getBestTwoEdges (VERSION 3): empty input yields the empty
list, otherwise the best-scoring entry passing the band filter, which may
again be the empty list when every entry is filtered out. -/
def getBestTwoEdges (tol : ℚ) (oneMap : Edge → ℚ)
    (comboMap : List ((Edge × Edge) × ℚ)) : List Edge :=
  if comboMap.isEmpty then []
  else (comboMap.foldl (gbteStep tol oneMap) (bestInit, [])).2

/-! Concrete instances used by closed theorems. -/

/-- Oracle returning the dummy column with coefficient one for every
coefficient query and column one as the single not-allowed column. -/
def baseOracle : NodeOracle :=
  { obtainBrcCoefficient := fun _ _ => ([0], [1])
    obtainColIdxNotAllowByEdge := fun _ _ => [1]
    rmEnuMask := fun m _ => m }

/-- A row holding one empty bucket. -/
def emptyBucketRow : List Bucket := [{ bucket_arcs := [], jump_arcs := [] }]

/-- A minimal three-vertex root node with one dummy column and no rows. -/
def baseNode : BbNode :=
  { idx := 0
    if_root_node := true
    if_terminate := false
    if_in_enu_state := false
    cols := [{ col_seq := [] }]
    solver := { numCol := 1, baseRowCount := 0, rows := [] }
    rccs := []
    r1cs := []
    brcs := []
    value := 0
    last_gap := 0
    num_forward_bucket_arcs := 0
    num_forward_jump_arcs := 0
    num_backward_bucket_arcs := 0
    num_backward_jump_arcs := 0
    topological_order_forward := []
    topological_order_backward := []
    all_forward_buckets := [emptyBucketRow, emptyBucketRow, emptyBucketRow]
    all_backward_buckets := [emptyBucketRow, emptyBucketRow, emptyBucketRow]
    edge_map := []
    index_columns_in_enumeration_column_pool := []
    cost_for_columns_in_enumeration_column_pool := []
    deleted_columns_in_enumeration_pool := []
    valid_size := 0 }

/-- The base node with the terminate flag set. -/
def termNode : BbNode := { baseNode with if_terminate := true }

/-- The base node whose vertex 1 lists the head 2 twice in one bin. -/
def dupNode : BbNode :=
  { baseNode with all_forward_buckets :=
      [emptyBucketRow, [{ bucket_arcs := [2, 2], jump_arcs := [] }], emptyBucketRow] }

/-- The base node whose vertex 1 lists the head 2 once as a bucket arc and
whose vertex 2 lists the head 1 once as a jump arc. -/
def cleanNode : BbNode :=
  { baseNode with all_forward_buckets :=
      [emptyBucketRow, [{ bucket_arcs := [2], jump_arcs := [] }],
        [{ bucket_arcs := [], jump_arcs := [(0, 1)] }]] }

/-- The base node in enumeration state. -/
def enuNode : BbNode := { baseNode with if_in_enu_state := true }

/-- The base oracle returning no not-allowed columns at all. -/
def naOracle : NodeOracle :=
  { baseOracle with obtainColIdxNotAllowByEdge := fun _ _ => [] }

/-- Iterate imposeThreeBranching on fresh copies of the base root node,
threading the thread-local counter and the node index counter, as a single
thread of the solver does across the tree. -/
def c3Iter : Nat → Option (Nat × Nat)
  | 0 => some (0, 0)
  | n + 1 =>
    (c3Iter n).bind (fun s =>
      (imposeThreeBranching baseOracle true s.1 s.2 baseNode [(1, 2), (3, 4)] []).map
        (fun r => (r.2.2.1, r.2.2.2)))

/-- Dense coefficient of column k in a sparse (indices, values) pair,
accumulated the way the source accumulates tmp_val. -/
def coefAt (p : List Nat × List ℚ) (k : Nat) : ℚ :=
  addIntoF (fun _ => 0) p.1 p.2 k

/-- Dense coefficient of column k in an LP row. -/
def rowCoefAt (r : LPRow) (k : Nat) : ℚ :=
  addIntoF (fun _ => 0) r.cind r.cval k

/-! Helper lemmas about the branching operator. -/

theorem ratAbs_eq_abs (x : ℚ) : ratAbs x = |x| := by
  rw [ratAbs]
  by_cases h : x < 0
  · rw [if_pos h, abs_of_neg h]
  · rw [if_neg h, abs_of_nonneg (not_lt.mp h)]

theorem maskUpdate_brcs (c : Bool) (O : NodeOracle) (bf : Brc) (n : BbNode) :
    (maskUpdate c O bf n).brcs = n.brcs := by
  cases c <;> simp [maskUpdate]

theorem maskUpdate_idx (c : Bool) (O : NodeOracle) (bf : Brc) (n : BbNode) :
    (maskUpdate c O bf n).idx = n.idx := by
  cases c <;> simp [maskUpdate]

theorem rmLPCols_brcs (n : BbNode) (idxs : List Nat) : (rmLPCols n idxs).brcs = n.brcs := rfl

theorem rmLPCols_buckets (n : BbNode) (idxs : List Nat) :
    (rmLPCols n idxs).all_forward_buckets = n.all_forward_buckets ∧
      (rmLPCols n idxs).all_backward_buckets = n.all_backward_buckets :=
  ⟨rfl, rfl⟩

theorem rows_branchChildA (O : NodeOracle) (sym : Bool) (node : BbNode) (e1 e2 : Edge)
    (g : Nat) :
    (branchChildA O sym node e1 e2 g).solver.rows.length = node.solver.rows.length + 2 := by
  simp [branchChildA, cloneNode, addBranchConstraint]

theorem rows_branchChildB (O : NodeOracle) (sym : Bool) (node : BbNode) (e1 e2 : Edge)
    (g : Nat) :
    (branchChildB O sym node e1 e2 g).solver.rows.length = node.solver.rows.length + 2 := by
  simp [branchChildB, cloneNode, addBranchConstraint]

theorem brcs_branchChildA (O : NodeOracle) (sym : Bool) (node : BbNode) (e1 e2 : Edge)
    (g : Nat) :
    (branchChildA O sym node e1 e2 g).brcs =
      node.brcs ++ [⟨e1, (numRow node.solver : Int), true⟩,
        ⟨e2, ((numRow node.solver + 1 : Nat) : Int), true⟩] := by
  simp [branchChildA, cloneNode, addBranchConstraint, numRow, Nat.add_assoc]

theorem brcs_branchChildB (O : NodeOracle) (sym : Bool) (node : BbNode) (e1 e2 : Edge)
    (g : Nat) :
    (branchChildB O sym node e1 e2 g).brcs =
      node.brcs ++ [⟨e1, (numRow node.solver : Int), false⟩,
        ⟨e2, ((numRow node.solver + 1 : Nat) : Int), false⟩] := by
  simp [branchChildB, cloneNode, addBranchConstraint, numRow, Nat.add_assoc]

theorem middleChild_eq_some (O : NodeOracle) (sym : Bool) (node : BbNode) (e1 e2 : Edge)
    (g : Nat) (C : BbNode) (h : middleChild O sym node e1 e2 g = some C) :
    C.solver.rows.length = node.solver.rows.length + 1 ∧
      C.brcs = node.brcs ++ [⟨e1, (numRow node.solver : Int), true⟩,
        ⟨e2, (numRow node.solver : Int), true⟩] ∧
      C.all_forward_buckets = node.all_forward_buckets := by
  simp only [middleChild] at h
  rcases hM : mergeMiddle node.solver.numCol
      (O.obtainBrcCoefficient (middleChildBase sym node e1 e2 g) e1).1
      (O.obtainBrcCoefficient (middleChildBase sym node e1 e2 g) e1).2
      (O.obtainBrcCoefficient (middleChildBase sym node e1 e2 g) e2).1
      (O.obtainBrcCoefficient (middleChildBase sym node e1 e2 g) e2).2 with _ | cc <;>
    rw [hM] at h
  · exact absurd h (by simp)
  · rw [Option.some_inj] at h
    subst h
    refine ⟨by simp [middleChildBase, cloneNode], ?_, by simp [middleChildBase, cloneNode]⟩
    simp [middleChildBase, cloneNode]

theorem brcs_fallbackChildC1 (O : NodeOracle) (sym : Bool) (node : BbNode) (e1 e2 : Edge)
    (g : Nat) :
    (fallbackChildC1 O sym node e1 e2 g).brcs =
      node.brcs ++ [⟨e1, (numRow node.solver : Int), true⟩,
        ⟨e2, (numRow node.solver : Int), false⟩] := by
  simp [fallbackChildC1, cloneNode, addBranchConstraint]

theorem brcs_fallbackChildC2 (O : NodeOracle) (sym : Bool) (node : BbNode) (e1 e2 : Edge)
    (g : Nat) :
    (fallbackChildC2 O sym node e1 e2 g).brcs =
      node.brcs ++ [⟨e1, (numRow node.solver : Int), false⟩,
        ⟨e2, (numRow node.solver : Int), true⟩] := by
  simp [fallbackChildC2, cloneNode, addBranchConstraint]

theorem drop_append_two {β : Type} (l : List β) (x y : β) :
    (l ++ [x] ++ [y]).drop l.length = [x, y] := by
  rw [List.append_assoc, List.drop_left]
  rfl

theorem rhs_fallbackChildC1 (O : NodeOracle) (sym : Bool) (node : BbNode) (e1 e2 : Edge)
    (g : Nat) :
    ((fallbackChildC1 O sym node e1 e2 g).solver.rows.drop node.solver.rows.length).map
        LPRow.rhs = [1, 0] := by
  simp only [fallbackChildC1, cloneNode, addBranchConstraint]
  rw [drop_append_two]
  rfl

theorem rhs_fallbackChildC2 (O : NodeOracle) (sym : Bool) (node : BbNode) (e1 e2 : Edge)
    (g : Nat) :
    ((fallbackChildC2 O sym node e1 e2 g).solver.rows.drop node.solver.rows.length).map
        LPRow.rhs = [0, 1] := by
  simp only [fallbackChildC2, cloneNode, addBranchConstraint]
  rw [drop_append_two]
  rfl

/-- C1: for every non-terminated node and every edge pair of size two,
when the three-way round budget is not exceeded, imposeThreeBranching
produces exactly three children in order FORCE, FORBID, MIDDLE; the FORCE
child and the FORBID child each carry two new LP rows, the MIDDLE child
one, and every child's branch-constraint list is exactly two entries
longer than the parent's. -/
theorem c1_threeWayBranchShape (O : NodeOracle) (sym : Bool) (cnt gidx : Nat)
    (node : BbNode) (e1 e2 : Edge) (cs : List BbNode)
    (hterm : node.if_terminate = false)
    (hcnt : cnt + 1 ≤ MAX_3WAY_ROUNDS)
    (hmid : (middleChild O sym node e1 e2 gidx).isSome = true) :
    ∃ C, middleChild O sym node e1 e2 gidx = some C ∧
      imposeThreeBranching O sym cnt gidx node [e1, e2] cs =
        some ({ node with if_root_node := false },
          [branchChildA O sym node e1 e2 gidx, branchChildB O sym node e1 e2 gidx, C],
          cnt + 1, gidx + 3) ∧
      (branchChildA O sym node e1 e2 gidx).solver.rows.length =
        node.solver.rows.length + 2 ∧
      (branchChildB O sym node e1 e2 gidx).solver.rows.length =
        node.solver.rows.length + 2 ∧
      C.solver.rows.length = node.solver.rows.length + 1 ∧
      (branchChildA O sym node e1 e2 gidx).brcs.length = node.brcs.length + 2 ∧
      (branchChildB O sym node e1 e2 gidx).brcs.length = node.brcs.length + 2 ∧
      C.brcs.length = node.brcs.length + 2 ∧
      ((branchChildA O sym node e1 e2 gidx).brcs.drop node.brcs.length).map Brc.br_dir =
        [true, true] ∧
      ((branchChildB O sym node e1 e2 gidx).brcs.drop node.brcs.length).map Brc.br_dir =
        [false, false] := by
  rcases Option.isSome_iff_exists.mp hmid with ⟨C, hC⟩
  obtain ⟨hCr, hCb, _⟩ := middleChild_eq_some O sym node e1 e2 gidx C hC
  refine ⟨C, hC, ?_, rows_branchChildA O sym node e1 e2 gidx,
    rows_branchChildB O sym node e1 e2 gidx, hCr, ?_, ?_, ?_, ?_, ?_⟩
  · simp [imposeThreeBranching, hterm, hcnt, hC]
  · rw [brcs_branchChildA]
    simp
  · rw [brcs_branchChildB]
    simp
  · rw [hCb]
    simp
  · rw [brcs_branchChildA, List.drop_left]
    rfl
  · rw [brcs_branchChildB, List.drop_left]
    rfl

/-- C1 witness: the shape theorem instantiated at the concrete base root
node with its oracle. -/
theorem c1_threeWayBranchShape_witness :
    ∃ C, middleChild baseOracle true baseNode (1, 2) (3, 4) 0 = some C ∧
      imposeThreeBranching baseOracle true 0 0 baseNode [(1, 2), (3, 4)] [] =
        some ({ baseNode with if_root_node := false },
          [branchChildA baseOracle true baseNode (1, 2) (3, 4) 0,
            branchChildB baseOracle true baseNode (1, 2) (3, 4) 0, C],
          0 + 1, 0 + 3) ∧
      (branchChildA baseOracle true baseNode (1, 2) (3, 4) 0).solver.rows.length =
        baseNode.solver.rows.length + 2 ∧
      (branchChildB baseOracle true baseNode (1, 2) (3, 4) 0).solver.rows.length =
        baseNode.solver.rows.length + 2 ∧
      C.solver.rows.length = baseNode.solver.rows.length + 1 ∧
      (branchChildA baseOracle true baseNode (1, 2) (3, 4) 0).brcs.length =
        baseNode.brcs.length + 2 ∧
      (branchChildB baseOracle true baseNode (1, 2) (3, 4) 0).brcs.length =
        baseNode.brcs.length + 2 ∧
      C.brcs.length = baseNode.brcs.length + 2 ∧
      ((branchChildA baseOracle true baseNode (1, 2) (3, 4) 0).brcs.drop
        baseNode.brcs.length).map Brc.br_dir = [true, true] ∧
      ((branchChildB baseOracle true baseNode (1, 2) (3, 4) 0).brcs.drop
        baseNode.brcs.length).map Brc.br_dir = [false, false] :=
  c1_threeWayBranchShape baseOracle true 0 0 baseNode (1, 2) (3, 4) []
    rfl (by decide) (by decide)

/-- C3 counterexample: after ten successful three-way impositions in the
thread (on fresh root nodes), the eleventh call on a fresh root node,
whose own root-to-node path has executed zero three-way splits (its
branch list is empty), triggers the fallback and produces four children,
not the two children the claim states and not the three children its
trigger condition would demand. -/
theorem c3_counterexample :
    c3Iter 10 = some (10, 30) ∧
    baseNode.brcs = [] ∧
    (imposeThreeBranching baseOracle true 10 30 baseNode [(1, 2), (3, 4)] []).map
      (fun r => r.2.1.length) = some 4 ∧
    (imposeThreeBranching baseOracle true 10 30 baseNode [(1, 2), (3, 4)] []).map
      (fun r => r.2.1.length) ≠ some 2 ∧
    (imposeThreeBranching baseOracle true 10 30 baseNode [(1, 2), (3, 4)] []).map
      (fun r => r.2.1.length) ≠ some 3 :=
  ⟨by decide, rfl, by decide, by decide, by decide⟩

/-- C3 amended: the fallback of imposeThreeBranching triggers exactly when
the number of non-terminated three-way impositions already begun in the
thread (the thread-local counter, not a per-path count) reaches the limit
of ten, and in that case the call produces four children: Branch A
forcing both edges, Branch B forbidding both edges, and the two fallback
children enforcing e1 = 1 with e2 = 0 and e1 = 0 with e2 = 1. -/
theorem c3_fallbackThreadWide (O : NodeOracle) (sym : Bool) (cnt gidx : Nat)
    (node : BbNode) (e1 e2 : Edge) (cs : List BbNode)
    (p : BbNode) (ch : List BbNode) (c2 g2 : Nat)
    (hterm : node.if_terminate = false)
    (h : imposeThreeBranching O sym cnt gidx node [e1, e2] cs = some (p, ch, c2, g2)) :
    c2 = cnt + 1 ∧
    (cnt + 1 ≤ MAX_3WAY_ROUNDS → ch.length = 3) ∧
    (MAX_3WAY_ROUNDS < cnt + 1 →
      ch = [branchChildA O sym node e1 e2 gidx, branchChildB O sym node e1 e2 gidx,
        fallbackChildC1 O sym node e1 e2 gidx, fallbackChildC2 O sym node e1 e2 gidx] ∧
      (fallbackChildC1 O sym node e1 e2 gidx).brcs =
        node.brcs ++ [⟨e1, (numRow node.solver : Int), true⟩,
          ⟨e2, (numRow node.solver : Int), false⟩] ∧
      ((fallbackChildC1 O sym node e1 e2 gidx).solver.rows.drop
        node.solver.rows.length).map LPRow.rhs = [1, 0] ∧
      (fallbackChildC2 O sym node e1 e2 gidx).brcs =
        node.brcs ++ [⟨e1, (numRow node.solver : Int), false⟩,
          ⟨e2, (numRow node.solver : Int), true⟩] ∧
      ((fallbackChildC2 O sym node e1 e2 gidx).solver.rows.drop
        node.solver.rows.length).map LPRow.rhs = [0, 1]) := by
  by_cases hc : cnt + 1 ≤ MAX_3WAY_ROUNDS
  · rcases hM : middleChild O sym node e1 e2 gidx with _ | C
    · simp [imposeThreeBranching, hterm, hc, hM] at h
    · simp [imposeThreeBranching, hterm, hc, hM] at h
      obtain ⟨-, hch, hc2, -⟩ := h
      exact ⟨hc2.symm, fun _ => by rw [← hch]; rfl, fun hgt => absurd hc (not_le.mpr hgt)⟩
  · simp [imposeThreeBranching, hterm, hc] at h
    obtain ⟨-, hch, hc2, -⟩ := h
    exact ⟨hc2.symm, fun hle => absurd hle hc, fun _ =>
      ⟨hch.symm, brcs_fallbackChildC1 O sym node e1 e2 gidx,
        rhs_fallbackChildC1 O sym node e1 e2 gidx,
        brcs_fallbackChildC2 O sym node e1 e2 gidx,
        rhs_fallbackChildC2 O sym node e1 e2 gidx⟩⟩

/-- C3 amended witness: the fallback theorem instantiated at the eleventh
call of the concrete thread trace. -/
theorem c3_fallbackThreadWide_witness :
    (10 : Nat) + 1 > MAX_3WAY_ROUNDS ∧
    ∃ p ch c2 g2,
      imposeThreeBranching baseOracle true 10 30 baseNode [(1, 2), (3, 4)] [] =
        some (p, ch, c2, g2) ∧
      c2 = 10 + 1 ∧
      ch = [branchChildA baseOracle true baseNode (1, 2) (3, 4) 30,
        branchChildB baseOracle true baseNode (1, 2) (3, 4) 30,
        fallbackChildC1 baseOracle true baseNode (1, 2) (3, 4) 30,
        fallbackChildC2 baseOracle true baseNode (1, 2) (3, 4) 30] := by
  refine ⟨by decide, ?_⟩
  rcases hR : imposeThreeBranching baseOracle true 10 30 baseNode [(1, 2), (3, 4)] []
    with _ | ⟨p, ch, c2, g2⟩
  · have hS : (imposeThreeBranching baseOracle true 10 30 baseNode
        [(1, 2), (3, 4)] []).isSome = true := by decide
    rw [hR] at hS
    exact absurd hS (by decide)
  · obtain ⟨hc2, -, hfb⟩ := c3_fallbackThreadWide baseOracle true 10 30 baseNode
      (1, 2) (3, 4) [] p ch c2 g2 rfl hR
    exact ⟨p, ch, c2, g2, rfl, hc2, (hfb (by decide)).1⟩

theorem addBranchCutToUnsolved_spec (O : NodeOracle) (sym : Bool) (gidx : Nat)
    (node : BbNode) (e : Edge) (slot : Option BbNode)
    (hterm : node.if_terminate = false)
    (hne : (O.obtainBrcCoefficient node e).1 ≠ []) :
    addBranchCutToUnsolved O sym gidx node e slot =
      some (falseChildTwoWay O sym node e gidx,
        some (trueChildTwoWay O sym node e gidx), gidx + 2) := by
  rcases hc : (O.obtainBrcCoefficient node e).1 with _ | ⟨s0, srest⟩
  · exact absurd hc hne
  · simp [addBranchCutToUnsolved, hterm, hc]

theorem falseChildTwoWay_brcs (O : NodeOracle) (sym : Bool) (node : BbNode) (e : Edge)
    (g : Nat) :
    (falseChildTwoWay O sym node e g).brcs =
      node.brcs ++ [⟨e, INVALID_BRC_INDEX, false⟩] := by
  simp [falseChildTwoWay, rmLPCols]

theorem trueChildTwoWay_brcs (O : NodeOracle) (sym : Bool) (node : BbNode) (e : Edge)
    (g : Nat) :
    (trueChildTwoWay O sym node e g).brcs =
      node.brcs ++ [⟨e, (numRow node.solver : Int), true⟩] := by
  simp [trueChildTwoWay, cloneNode]

theorem falseChildTwoWay_idx (O : NodeOracle) (sym : Bool) (node : BbNode) (e : Edge)
    (g : Nat) : (falseChildTwoWay O sym node e g).idx = g + 2 := rfl

theorem trueChildTwoWay_idx (O : NodeOracle) (sym : Bool) (node : BbNode) (e : Edge)
    (g : Nat) : (trueChildTwoWay O sym node e g).idx = g + 1 := rfl

theorem falseChildTwoWay_fwd (O : NodeOracle) (sym : Bool) (node : BbNode) (e : Edge)
    (g : Nat) :
    (falseChildTwoWay O sym node e g).all_forward_buckets =
      deleteArcByFalseBranchConstraint node.all_forward_buckets e := by
  simp [falseChildTwoWay, rmLPCols]

theorem falseChildTwoWay_bwd (O : NodeOracle) (node : BbNode) (e : Edge) (g : Nat) :
    (falseChildTwoWay O false node e g).all_backward_buckets =
      deleteArcByFalseBranchConstraint node.all_backward_buckets e := by
  simp [falseChildTwoWay, rmLPCols]

theorem addBranchCutToUnsolvedInEnu_spec (O : NodeOracle) (gidx : Nat)
    (node : BbNode) (e : Edge) (slot : Option BbNode)
    (hterm : node.if_terminate = false)
    (hne : (O.obtainBrcCoefficient node e).1 ≠ [])
    (hna : O.obtainColIdxNotAllowByEdge node e ≠ []) :
    addBranchCutToUnsolvedInEnu O gidx node e slot =
      some (falseChildEnu O node e gidx, some (trueChildEnu O node e gidx), gidx + 2) := by
  rcases hc : (O.obtainBrcCoefficient node e).1 with _ | ⟨u0, urest⟩
  · exact absurd hc hne
  · rcases hn : O.obtainColIdxNotAllowByEdge node e with _ | ⟨m0, mrest⟩
    · exact absurd hn hna
    · simp [addBranchCutToUnsolvedInEnu, hterm, hc, hn]

theorem falseChildEnu_brcs (O : NodeOracle) (node : BbNode) (e : Edge) (g : Nat) :
    (falseChildEnu O node e g).brcs = node.brcs ++ [⟨e, INVALID_BRC_INDEX, false⟩] := by
  simp [falseChildEnu, maskUpdate_brcs, rmLPCols]

theorem trueChildEnu_brcs (O : NodeOracle) (node : BbNode) (e : Edge) (g : Nat) :
    (trueChildEnu O node e g).brcs = node.brcs ++ [⟨e, INVALID_BRC_INDEX, true⟩] := by
  simp [trueChildEnu, maskUpdate_brcs, rmLPCols, cloneNodeEnu]

theorem falseChildEnu_idx (O : NodeOracle) (node : BbNode) (e : Edge) (g : Nat) :
    (falseChildEnu O node e g).idx = g + 2 := rfl

theorem trueChildEnu_idx (O : NodeOracle) (node : BbNode) (e : Edge) (g : Nat) :
    (trueChildEnu O node e g).idx = g + 1 := by
  rw [trueChildEnu, maskUpdate_idx]
  simp [rmLPCols, cloneNodeEnu]

/-- C6 counterexample: on a concrete terminated node the two-way
imposeBranching returns a one-element children vector holding the node
itself, not the empty collection the claim states. -/
theorem c6_counterexample :
    (imposeBranching baseOracle true 0 termNode (1, 2) []).map (fun r => r.1.length) =
      some 1 ∧
    (imposeBranching baseOracle true 0 termNode (1, 2) []).map (fun r => r.1.length) ≠
      some 0 :=
  ⟨by decide, by decide⟩

/-- C6 amended: on a terminated node the three-way imposeThreeBranching
returns with the node and the children buffer untouched (so an empty
buffer stays empty), while the two-way imposeBranching returns the
one-element vector holding the original node, whose LP, columns, branch
constraints and buckets are unchanged and whose edge-solution cache alone
is cleared. -/
theorem c6_terminatedNode (O : NodeOracle) (sym : Bool) (cnt gidx : Nat) (node : BbNode)
    (e e1 e2 : Edge) (cs : List BbNode)
    (hterm : node.if_terminate = true) :
    imposeBranching O sym gidx node e [] =
      some ([some { node with edge_map := [] }], gidx) ∧
    imposeThreeBranching O sym cnt gidx node [e1, e2] cs = some (node, cs, cnt, gidx) := by
  constructor
  · by_cases hE : node.if_in_enu_state <;>
      simp [imposeBranching, addBranchCutToUnsolved, addBranchCutToUnsolvedInEnu, hterm, hE]
  · simp [imposeThreeBranching, hterm]

/-- C6 amended witness: the terminated-node theorem instantiated at the
concrete terminated node. -/
theorem c6_terminatedNode_witness :
    imposeBranching baseOracle true 0 termNode (1, 2) [] =
      some ([some { termNode with edge_map := [] }], 0) ∧
    imposeThreeBranching baseOracle true 0 0 termNode [(1, 2), (3, 4)] [] =
      some (termNode, [], 0, 0) :=
  c6_terminatedNode baseOracle true 0 0 termNode (1, 2) (1, 2) (3, 4) [] rfl

/-- C7: for every non-terminated node, the two-way branch returns the
vector with the false child first and the true child second, the false
child being the original node mutated in place (it carries the new FORBID
constraint with the sentinel row index and the re-assigned node index)
and the true child a fresh clone carrying the new FORCE constraint; the
true-child slot is not null, so nothing is dropped. -/
theorem c7_twoWayOrder (O : NodeOracle) (sym : Bool) (gidx : Nat) (node : BbNode) (e : Edge)
    (ch : List (Option BbNode)) (g2 : Nat)
    (hterm : node.if_terminate = false)
    (h : imposeBranching O sym gidx node e [] = some (ch, g2)) :
    ∃ nF nT k, ch = [some nF, some nT] ∧
      nF.brcs = node.brcs ++ [⟨e, INVALID_BRC_INDEX, false⟩] ∧
      nT.brcs = node.brcs ++ [⟨e, k, true⟩] ∧
      nF.idx = gidx + 2 ∧ nT.idx = gidx + 1 ∧ g2 = gidx + 2 := by
  by_cases hE : node.if_in_enu_state
  · rcases hc : (O.obtainBrcCoefficient node e).1 with _ | ⟨u0, urest⟩
    · exfalso
      simp [imposeBranching, hE, addBranchCutToUnsolvedInEnu, hterm, hc] at h
    · rcases hn : O.obtainColIdxNotAllowByEdge node e with _ | ⟨m0, mrest⟩
      · exfalso
        simp [imposeBranching, hE, addBranchCutToUnsolvedInEnu, hterm, hc, hn] at h
      · have hd := addBranchCutToUnsolvedInEnu_spec O gidx node e (List.getD [] 1 none)
          hterm (by rw [hc]; exact List.cons_ne_nil u0 urest)
          (by rw [hn]; exact List.cons_ne_nil m0 mrest)
        rw [imposeBranching, if_pos hE, hd] at h
        simp only [Option.some.injEq, Prod.mk.injEq] at h
        refine ⟨{ falseChildEnu O node e gidx with edge_map := [] },
          trueChildEnu O node e gidx, INVALID_BRC_INDEX, h.1.symm, ?_, ?_, ?_, ?_, h.2.symm⟩
        · rw [show ({ falseChildEnu O node e gidx with edge_map := [] } : BbNode).brcs =
            (falseChildEnu O node e gidx).brcs from rfl, falseChildEnu_brcs]
        · exact trueChildEnu_brcs O node e gidx
        · rw [show ({ falseChildEnu O node e gidx with edge_map := [] } : BbNode).idx =
            (falseChildEnu O node e gidx).idx from rfl, falseChildEnu_idx]
        · exact trueChildEnu_idx O node e gidx
  · rcases hc : (O.obtainBrcCoefficient node e).1 with _ | ⟨s0, srest⟩
    · exfalso
      simp [imposeBranching, hE, addBranchCutToUnsolved, hterm, hc] at h
    · have hd := addBranchCutToUnsolved_spec O sym gidx node e (List.getD [] 1 none)
        hterm (by rw [hc]; exact List.cons_ne_nil s0 srest)
      rw [imposeBranching, if_neg hE, hd] at h
      simp only [Option.some.injEq, Prod.mk.injEq] at h
      refine ⟨{ falseChildTwoWay O sym node e gidx with edge_map := [] },
        trueChildTwoWay O sym node e gidx, (numRow node.solver : Int), h.1.symm,
        ?_, ?_, ?_, ?_, h.2.symm⟩
      · rw [show ({ falseChildTwoWay O sym node e gidx with edge_map := [] } : BbNode).brcs =
          (falseChildTwoWay O sym node e gidx).brcs from rfl, falseChildTwoWay_brcs]
      · exact trueChildTwoWay_brcs O sym node e gidx
      · rw [show ({ falseChildTwoWay O sym node e gidx with edge_map := [] } : BbNode).idx =
          (falseChildTwoWay O sym node e gidx).idx from rfl, falseChildTwoWay_idx]
      · exact trueChildTwoWay_idx O sym node e gidx

/-- C7 witness: the two-way order theorem instantiated at the concrete
base node. -/
theorem c7_twoWayOrder_witness :
    ∃ (ch : List (Option BbNode)) (g2 : Nat) (nF nT : BbNode) (k : Int),
      imposeBranching baseOracle true 0 baseNode (1, 2) [] = some (ch, g2) ∧
      ch = [some nF, some nT] ∧
      nF.brcs = baseNode.brcs ++ [⟨(1, 2), INVALID_BRC_INDEX, false⟩] ∧
      nT.brcs = baseNode.brcs ++ [⟨(1, 2), k, true⟩] := by
  rcases hR : imposeBranching baseOracle true 0 baseNode (1, 2) [] with _ | ⟨ch, g2⟩
  · have hS : (imposeBranching baseOracle true 0 baseNode (1, 2) []).isSome = true := by
      decide
    rw [hR] at hS
    exact absurd hS (by decide)
  · obtain ⟨nF, nT, k, hch, hb1, hb2, -⟩ :=
      c7_twoWayOrder baseOracle true 0 baseNode (1, 2) ch g2 rfl hR
    exact ⟨ch, g2, nF, nT, k, rfl, hch, hb1, hb2⟩

/-- C8: for every non-terminated node on which a three-way branch is
imposed, the FORBID child (Branch B) is the second child and its forward
bucket graph, and its backward bucket graph when symmetry is not assumed,
are element-wise equal to the parent's: the branch only adds LP rows. -/
theorem c8_forbidChildBucketsUnchanged (O : NodeOracle) (sym : Bool) (cnt gidx : Nat)
    (node : BbNode) (e1 e2 : Edge) (cs : List BbNode)
    (p : BbNode) (ch : List BbNode) (c2 g2 : Nat)
    (hterm : node.if_terminate = false)
    (h : imposeThreeBranching O sym cnt gidx node [e1, e2] cs = some (p, ch, c2, g2)) :
    ch.get? 1 = some (branchChildB O sym node e1 e2 gidx) ∧
    (branchChildB O sym node e1 e2 gidx).all_forward_buckets = node.all_forward_buckets ∧
    (sym = false → (branchChildB O sym node e1 e2 gidx).all_backward_buckets =
      node.all_backward_buckets) := by
  refine ⟨?_, by simp [branchChildB, cloneNode], fun hs => by simp [branchChildB, cloneNode, hs]⟩
  by_cases hc : cnt + 1 ≤ MAX_3WAY_ROUNDS
  · rcases hM : middleChild O sym node e1 e2 gidx with _ | C
    · simp [imposeThreeBranching, hterm, hc, hM] at h
    · simp [imposeThreeBranching, hterm, hc, hM] at h
      rw [← h.2.1]
      rfl
  · simp [imposeThreeBranching, hterm, hc] at h
    rw [← h.2.1]
    rfl

/-- C8 witness: the frame theorem instantiated at the concrete base node. -/
theorem c8_forbidChildBucketsUnchanged_witness :
    ∃ p ch c2 g2,
      imposeThreeBranching baseOracle true 0 0 baseNode [(1, 2), (3, 4)] [] =
        some (p, ch, c2, g2) ∧
      ch.get? 1 = some (branchChildB baseOracle true baseNode (1, 2) (3, 4) 0) ∧
      (branchChildB baseOracle true baseNode (1, 2) (3, 4) 0).all_forward_buckets =
        baseNode.all_forward_buckets := by
  rcases hR : imposeThreeBranching baseOracle true 0 0 baseNode [(1, 2), (3, 4)] []
    with _ | ⟨p, ch, c2, g2⟩
  · have hS : (imposeThreeBranching baseOracle true 0 0 baseNode
        [(1, 2), (3, 4)] []).isSome = true := by decide
    rw [hR] at hS
    exact absurd hS (by decide)
  · obtain ⟨h1, h2, -⟩ := c8_forbidChildBucketsUnchanged baseOracle true 0 0 baseNode
      (1, 2) (3, 4) [] p ch c2 g2 rfl hR
    exact ⟨p, ch, c2, g2, rfl, h1, h2⟩

/-- C10: both two-way branching details read the head of the coefficient
index vector, and the enumeration detail also the head of the not-allowed
index vector, without an emptiness check; they are total exactly under the
precondition that these vectors are non-empty, and on a concrete
enumeration node whose selector returns no not-allowed columns the access
is out of bounds. -/
theorem c10_unguardedFrontAccess :
    (∀ (O : NodeOracle) (sym : Bool) (gidx : Nat) (node : BbNode) (e : Edge)
        (slot : Option BbNode), node.if_terminate = false →
      (O.obtainBrcCoefficient node e).1 ≠ [] →
      (addBranchCutToUnsolved O sym gidx node e slot).isSome = true) ∧
    (∀ (O : NodeOracle) (gidx : Nat) (node : BbNode) (e : Edge)
        (slot : Option BbNode), node.if_terminate = false →
      (O.obtainBrcCoefficient node e).1 ≠ [] →
      O.obtainColIdxNotAllowByEdge node e ≠ [] →
      (addBranchCutToUnsolvedInEnu O gidx node e slot).isSome = true) ∧
    (∀ (O : NodeOracle) (sym : Bool) (gidx : Nat) (node : BbNode) (e : Edge)
        (slot : Option BbNode), node.if_terminate = false →
      (O.obtainBrcCoefficient node e).1 = [] →
      addBranchCutToUnsolved O sym gidx node e slot = none) ∧
    (∀ (O : NodeOracle) (gidx : Nat) (node : BbNode) (e : Edge)
        (slot : Option BbNode), node.if_terminate = false →
      (O.obtainBrcCoefficient node e).1 ≠ [] →
      O.obtainColIdxNotAllowByEdge node e = [] →
      addBranchCutToUnsolvedInEnu O gidx node e slot = none) ∧
    addBranchCutToUnsolvedInEnu naOracle 0 enuNode (1, 2) none = none := by
  refine ⟨?_, ?_, ?_, ?_, by decide⟩
  · intro O sym gidx node e slot hterm hne
    rw [addBranchCutToUnsolved_spec O sym gidx node e slot hterm hne]
    rfl
  · intro O gidx node e slot hterm hne hna
    rw [addBranchCutToUnsolvedInEnu_spec O gidx node e slot hterm hne hna]
    rfl
  · intro O sym gidx node e slot hterm hc
    simp [addBranchCutToUnsolved, hterm, hc]
  · intro O gidx node e slot hterm hne hn
    rcases hc : (O.obtainBrcCoefficient node e).1 with _ | ⟨u0, urest⟩
    · exact absurd hc hne
    · simp [addBranchCutToUnsolvedInEnu, hterm, hc, hn]

/-- C10 witness: the totality part instantiated at the concrete base node
and oracle. -/
theorem c10_unguardedFrontAccess_witness :
    (addBranchCutToUnsolved baseOracle true 0 baseNode (1, 2) none).isSome = true := by
  have h := c10_unguardedFrontAccess
  exact h.1 baseOracle true 0 baseNode (1, 2) none rfl (by decide)

/-! Lemmas for the FORBID arc-deletion invariant. -/

theorem notMem_eraseFirstArc (j : Nat) (l : List Nat) (h : l.count j ≤ 1) :
    j ∉ eraseFirstArc j l := by
  induction l with
  | nil => simp [eraseFirstArc]
  | cons a t ih =>
    by_cases ha : a = j
    · subst ha
      rw [List.count_cons_self] at h
      have ht : t.count a = 0 := by omega
      rw [eraseFirstArc, if_pos rfl]
      exact List.count_eq_zero.mp ht
    · rw [List.count_cons_of_ne (fun hj => ha hj.symm)] at h
      rw [eraseFirstArc, if_neg ha]
      intro hm
      rcases List.mem_cons.mp hm with hm | hm
      · exact ha hm.symm
      · exact ih h hm

theorem eraseFirstJump_free (j : Nat) (l : List (Nat × Nat)) (h : jumpCount j l ≤ 1)
    (hx : ∃ p ∈ l, p.2 = j) : ∀ p ∈ eraseFirstJump j l, p.2 ≠ j := by
  induction l with
  | nil => simp [eraseFirstJump]
  | cons q t ih =>
    by_cases hq : q.2 = j
    · rw [eraseFirstJump, if_pos hq]
      have hc : jumpCount j t = 0 := by
        rw [jumpCount, List.countP_cons_of_pos _ _ (by simp [hq])] at h
        rw [jumpCount]
        omega
      intro p hp
      have := List.countP_eq_zero.mp hc p hp
      simpa using this
    · rw [eraseFirstJump, if_neg hq]
      intro p hp
      rcases List.mem_cons.mp hp with hp | hp
      · rw [hp]
        exact hq
      · rcases hx with ⟨r, hr, hrj⟩
        rcases List.mem_cons.mp hr with hr | hr
        · exact absurd (hr ▸ hrj) hq
        · have hc1 : jumpCount j t ≤ 1 := by
            rw [jumpCount, List.countP_cons_of_neg _ _ (by simp [hq])] at h
            exact h
          exact ih hc1 ⟨r, hr, hrj⟩ p hp

theorem eraseFirstJump_id (j : Nat) (l : List (Nat × Nat)) (hx : ¬∃ p ∈ l, p.2 = j) :
    eraseFirstJump j l = l := by
  induction l with
  | nil => rfl
  | cons q t ih =>
    rw [eraseFirstJump, if_neg (fun hq => hx ⟨q, List.mem_cons_self q t, hq⟩)]
    rw [ih (fun hex => hx (match hex with
      | ⟨r, hr, hrj⟩ => ⟨r, List.mem_cons_of_mem q hr, hrj⟩))]

theorem delArcBucket_free (j : Nat) (b : Bucket) (h : headCount j b ≤ 1) :
    bucketHasHead j (delArcBucket j b) = false := by
  rw [headCount] at h
  by_cases hm : j ∈ b.bucket_arcs
  · have h1 : 1 ≤ b.bucket_arcs.count j := List.count_pos_iff.mpr hm
    have hj : jumpCount j b.jump_arcs = 0 := by omega
    rw [delArcBucket, if_pos hm]
    rw [bucketHasHead]
    have hna : j ∉ eraseFirstArc j b.bucket_arcs :=
      notMem_eraseFirstArc j b.bucket_arcs (by omega)
    simp only [Bool.or_eq_false_iff, decide_eq_false_iff_not]
    refine ⟨hna, ?_⟩
    rw [List.any_eq_false]
    intro p hp
    have := List.countP_eq_zero.mp hj p hp
    simpa using this
  · rw [delArcBucket, if_neg hm]
    rw [bucketHasHead]
    simp only [Bool.or_eq_false_iff, decide_eq_false_iff_not]
    by_cases hx : ∃ p ∈ b.jump_arcs, p.2 = j
    · refine ⟨hm, ?_⟩
      rw [List.any_eq_false]
      intro p hp
      have := eraseFirstJump_free j b.jump_arcs (by omega) hx p hp
      simpa using this
    · have hid : eraseFirstJump j b.jump_arcs = b.jump_arcs :=
        eraseFirstJump_id j b.jump_arcs hx
      refine ⟨hm, ?_⟩
      rw [hid, List.any_eq_false]
      intro p hp
      simp only [decide_eq_true_eq]
      exact fun hpj => hx ⟨p, hp, hpj⟩

theorem length_setRow (l : List (List Bucket)) (i : Nat) (r : List Bucket) :
    (setRow l i r).length = l.length := by
  induction l generalizing i with
  | nil => rfl
  | cons h t ih =>
    cases i with
    | zero => rfl
    | succ n => simp [setRow, ih]

theorem getD_setRow_self (l : List (List Bucket)) (i : Nat) (r : List Bucket)
    (h : i < l.length) : (setRow l i r).getD i [] = r := by
  induction l generalizing i with
  | nil => simp at h
  | cons a t ih =>
    cases i with
    | zero => rfl
    | succ n =>
      rw [setRow]
      exact ih n (by simpa using h)

theorem getD_setRow_ne (l : List (List Bucket)) (i k : Nat) (r : List Bucket)
    (h : i ≠ k) : (setRow l i r).getD k [] = l.getD k [] := by
  induction l generalizing i k with
  | nil => rfl
  | cons a t ih =>
    cases i with
    | zero =>
      cases k with
      | zero => exact absurd rfl h
      | succ m => rfl
    | succ n =>
      cases k with
      | zero => rfl
      | succ m =>
        rw [setRow]
        exact ih n m (fun hnm => h (by rw [hnm]))

theorem noArcRow_map_del (j : Nat) (row : List Bucket)
    (h : ∀ b ∈ row, headCount j b ≤ 1) :
    noArcRow j (row.map (delArcBucket j)) = true := by
  rw [noArcRow, List.all_eq_true]
  intro b hb
  rcases List.mem_map.mp hb with ⟨b0, hb0, hbb⟩
  rw [← hbb, delArcBucket_free j b0 (h b0 hb0)]
  rfl

theorem deleteArc_noArc (buckets : List (List Bucket)) (i j : Nat)
    (hij : i ≠ j) (hi : i < buckets.length) (hj : j < buckets.length)
    (hci : ∀ b ∈ buckets.getD i [], headCount j b ≤ 1)
    (hcj : ∀ b ∈ buckets.getD j [], headCount i b ≤ 1) :
    noArc (deleteArcByFalseBranchConstraint buckets (i, j)) i j = true := by
  rw [deleteArcByFalseBranchConstraint]
  rw [noArc]
  have hrow_i :
      (setRow (setRow buckets i ((buckets.getD i []).map (delArcBucket j))) j
        (((setRow buckets i ((buckets.getD i []).map (delArcBucket j))).getD j []).map
          (delArcBucket i))).getD i [] =
      (buckets.getD i []).map (delArcBucket j) := by
    rw [getD_setRow_ne _ j i _ (fun hc => hij hc.symm), getD_setRow_self _ i _ hi]
  have hrow_j :
      (setRow (setRow buckets i ((buckets.getD i []).map (delArcBucket j))) j
        (((setRow buckets i ((buckets.getD i []).map (delArcBucket j))).getD j []).map
          (delArcBucket i))).getD j [] =
      (buckets.getD j []).map (delArcBucket i) := by
    rw [getD_setRow_self _ j _ (by rw [length_setRow]; exact hj),
      getD_setRow_ne _ i j _ hij]
  rw [hrow_i, hrow_j, noArcRow_map_del j _ hci, noArcRow_map_del i _ hcj]
  rfl

/-- C2 counterexample: a node whose vertex 1 lists the head 2 twice in one
bin; the imposed FORBID branch on edge (1, 2) erases only one occurrence,
so the false child still has a bucket of vertex 1 containing 2, and the
claimed invariant is false on the code. -/
theorem c2_counterexample :
    (addBranchCutToUnsolved baseOracle true 0 dupNode (1, 2) none).map
      (fun r => noArc r.1.all_forward_buckets 1 2) = some false ∧
    (addBranchCutToUnsolved baseOracle true 0 dupNode (1, 2) none).map
      (fun r => noArc r.1.all_forward_buckets 1 2) ≠ some true :=
  ⟨by decide, by decide⟩

/-- C2 amended: after a two-way FORBID branch on edge (i, j), the false
child has no bucket of i containing j and no bucket of j containing i --
over both the bucket-arc and the jump-arc lists, and in the backward
buckets too when symmetry is not assumed -- provided every bucket of i
mentions j at most once and every bucket of j mentions i at most once
(across both lists together), which is the multiplicity discipline of the
bucket graph; without it the deletion removes only the first occurrence
per bin. -/
theorem c2_forbidDeletesArcs (O : NodeOracle) (sym : Bool) (gidx : Nat)
    (node : BbNode) (i j : Nat) (slot : Option BbNode)
    (nF : BbNode) (s : Option BbNode) (g2 : Nat)
    (hterm : node.if_terminate = false)
    (h : addBranchCutToUnsolved O sym gidx node (i, j) slot = some (nF, s, g2))
    (hij : i ≠ j)
    (hi : i < node.all_forward_buckets.length)
    (hj : j < node.all_forward_buckets.length)
    (hci : ∀ b ∈ node.all_forward_buckets.getD i [], headCount j b ≤ 1)
    (hcj : ∀ b ∈ node.all_forward_buckets.getD j [], headCount i b ≤ 1)
    (hbwd : sym = false →
      i < node.all_backward_buckets.length ∧ j < node.all_backward_buckets.length ∧
      (∀ b ∈ node.all_backward_buckets.getD i [], headCount j b ≤ 1) ∧
      (∀ b ∈ node.all_backward_buckets.getD j [], headCount i b ≤ 1)) :
    noArc nF.all_forward_buckets i j = true ∧
    (sym = false → noArc nF.all_backward_buckets i j = true) := by
  have hne : (O.obtainBrcCoefficient node (i, j)).1 ≠ [] := by
    intro hc
    rw [addBranchCutToUnsolved, if_neg (by rw [hterm]; exact Bool.false_ne_true), hc] at h
    exact Option.noConfusion h
  rw [addBranchCutToUnsolved_spec O sym gidx node (i, j) slot hterm hne] at h
  simp only [Option.some.injEq, Prod.mk.injEq] at h
  obtain ⟨hF, -⟩ := h
  constructor
  · rw [← hF, falseChildTwoWay_fwd]
    exact deleteArc_noArc node.all_forward_buckets i j hij hi hj hci hcj
  · intro hs
    subst hs
    obtain ⟨hbi, hbj, hbci, hbcj⟩ := hbwd rfl
    rw [← hF, falseChildTwoWay_bwd]
    exact deleteArc_noArc node.all_backward_buckets i j hij hbi hbj hbci hbcj

/-- C2 amended witness: the deletion theorem instantiated at a concrete
clean node where each bucket mentions the forbidden edge at most once. -/
theorem c2_forbidDeletesArcs_witness :
    ∃ nF s g2,
      addBranchCutToUnsolved baseOracle true 0 cleanNode (1, 2) none = some (nF, s, g2) ∧
      noArc nF.all_forward_buckets 1 2 = true := by
  rcases hR : addBranchCutToUnsolved baseOracle true 0 cleanNode (1, 2) none
    with _ | ⟨nF, s, g2⟩
  · have hS : (addBranchCutToUnsolved baseOracle true 0 cleanNode (1, 2) none).isSome =
        true := by decide
    rw [hR] at hS
    exact absurd hS (by decide)
  · obtain ⟨h1, -⟩ := c2_forbidDeletesArcs baseOracle true 0 cleanNode 1 2 none nF s g2
      rfl hR (by decide) (by decide) (by decide) (by decide) (by decide)
      (fun hs => Bool.noConfusion hs)
    exact ⟨nF, s, g2, rfl, h1⟩

/-! Lemmas for the MIDDLE coefficient merge. -/

theorem addIntoF_not_mem (g : Nat → ℚ) (is : List Nat) (vs : List ℚ) (k : Nat)
    (hk : k ∉ is) : addIntoF g is vs k = g k := by
  induction is generalizing g vs with
  | nil => cases vs <;> rfl
  | cons i it ih =>
    cases vs with
    | nil => rfl
    | cons v vt =>
      rw [addIntoF]
      rw [ih _ _ (fun hm => hk (List.mem_cons_of_mem i hm))]
      exact Function.update_noteq
        (fun he => hk (by rw [he]; exact List.mem_cons_self i it)) _ g

theorem addIntoF_map_mem (is : List Nat) : ∀ (g f : Nat → ℚ) (k : Nat),
    is.Nodup → k ∈ is → addIntoF g is (is.map f) k = g k + f k := by
  induction is with
  | nil =>
    intro g f k _ hk
    simp at hk
  | cons i it ih =>
    intro g f k hnd hk
    rw [List.map_cons, addIntoF]
    rcases List.mem_cons.mp hk with hk1 | hk2
    · subst hk1
      rw [addIntoF_not_mem _ _ _ _ (List.nodup_cons.mp hnd).1, Function.update_same]
    · rw [ih _ f k (List.nodup_cons.mp hnd).2 hk2]
      congr 1
      exact Function.update_noteq
        (fun he => (List.nodup_cons.mp hnd).1 (by rw [← he]; exact hk2)) _ g

theorem addIntoF_nonneg (is : List Nat) : ∀ (g : Nat → ℚ) (vs : List ℚ),
    (∀ k, 0 ≤ g k) → (∀ v ∈ vs, 0 ≤ v) → ∀ k, 0 ≤ addIntoF g is vs k := by
  induction is with
  | nil =>
    intro g vs hg _ k
    cases vs <;> exact hg k
  | cons i it ih =>
    intro g vs hg hv k
    cases vs with
    | nil => exact hg k
    | cons v vt =>
      rw [addIntoF]
      refine ih _ _ ?_ (fun w hw => hv w (List.mem_cons_of_mem v hw)) k
      intro m
      by_cases hmi : m = i
      · subst hmi
        rw [Function.update_same]
        have h1 := hv v (List.mem_cons_self v vt)
        have h2 := hg m
        linarith
      · rw [Function.update_noteq hmi]
        exact hg m

theorem addIntoF_add_left (is : List Nat) : ∀ (g1 g2 : Nat → ℚ) (vs : List ℚ) (k : Nat),
    addIntoF (fun m => g1 m + g2 m) is vs k = g1 k + addIntoF g2 is vs k := by
  induction is with
  | nil =>
    intro g1 g2 vs k
    cases vs <;> rfl
  | cons i it ih =>
    intro g1 g2 vs k
    cases vs with
    | nil => rfl
    | cons v vt =>
      rw [addIntoF, addIntoF]
      have he : Function.update (fun m => g1 m + g2 m) i ((fun m => g1 m + g2 m) i + v) =
          fun m => g1 m + Function.update g2 i (g2 i + v) m := by
        funext m
        by_cases hmi : m = i
        · subst hmi
          rw [Function.update_same, Function.update_same]
          ring
        · rw [Function.update_noteq hmi, Function.update_noteq hmi]
      rw [he]
      exact ih g1 _ vt k

theorem mergeMiddle_rowDense (n : Nat) (i1 : List Nat) (v1 : List ℚ) (i2 : List Nat)
    (v2 : List ℚ) (cind : List Nat) (cval : List ℚ)
    (hm : mergeMiddle n i1 v1 i2 v2 = some (cind, cval))
    (hv1 : ∀ v ∈ v1, 0 ≤ v) (hv2 : ∀ v ∈ v2, 0 ≤ v) :
    ∀ k, k < n → addIntoF (fun _ => 0) cind cval k =
      if k = 0 then 1
      else addIntoF (fun _ => 0) i1 v1 k + addIntoF (fun _ => 0) i2 v2 k := by
  rw [mergeMiddle] at hm
  by_cases hg : (i1.all (fun i => decide (i < n)) && i2.all (fun i => decide (i < n))
      && decide (i1.length ≤ v1.length) && decide (i2.length ≤ v2.length)) = true
  · rw [if_pos hg] at hm
    simp only [Option.some.injEq, Prod.mk.injEq] at hm
    obtain ⟨hcind, hcval⟩ := hm
    set d1 : Nat → ℚ := addIntoF (fun _ => 0) i1 v1 with hd1
    set tmp : Nat → ℚ := addIntoF d1 i2 v2 with htmpdef
    have htmp_sum : ∀ k, tmp k = d1 k + addIntoF (fun _ => 0) i2 v2 k := by
      intro k
      have h2 : (fun m => d1 m + (fun _ => (0 : ℚ)) m) = d1 := by
        funext m
        rw [add_zero]
      calc tmp k
          = addIntoF (fun m => d1 m + (fun _ => (0 : ℚ)) m) i2 v2 k := by
            rw [htmpdef, h2]
        _ = d1 k + addIntoF (fun _ => 0) i2 v2 k :=
            addIntoF_add_left i2 d1 (fun _ => 0) v2 k
    have htmp_nonneg : ∀ k, 0 ≤ tmp k := by
      refine addIntoF_nonneg i2 d1 v2 ?_ hv2
      exact addIntoF_nonneg i1 (fun _ => 0) v1 (fun _ => le_refl 0) hv1
    set sel : List Nat := (List.range' 1 (n - 1)).filter (fun k => decide (0 < tmp k))
      with hseldef
    have hsel_nodup : sel.Nodup := List.Nodup.filter _ (List.nodup_range' 1 (n - 1))
    have hsel_mem : ∀ k, k ∈ sel ↔ (1 ≤ k ∧ k < n) ∧ 0 < tmp k := by
      intro k
      rw [hseldef, List.mem_filter, List.mem_range'_1, decide_eq_true_eq]
      constructor
      · rintro ⟨⟨h1, h2⟩, h3⟩
        exact ⟨⟨h1, by omega⟩, h3⟩
      · rintro ⟨⟨h1, h2⟩, h3⟩
        exact ⟨⟨h1, by omega⟩, h3⟩
    have hzero_notmem : (0 : Nat) ∉ sel := by
      intro h0
      have := ((hsel_mem 0).mp h0).1.1
      omega
    intro k hk
    rw [← hcind, ← hcval, addIntoF]
    have hbase : Function.update (fun _ => (0 : ℚ)) 0 ((fun _ => (0 : ℚ)) 0 + 1) =
        Function.update (fun _ => (0 : ℚ)) 0 1 := by
      rw [zero_add]
    rw [hbase]
    by_cases hk0 : k = 0
    · subst hk0
      rw [if_pos rfl, addIntoF_not_mem _ _ _ _ hzero_notmem, Function.update_same]
    · rw [if_neg hk0]
      by_cases hks : k ∈ sel
      · rw [addIntoF_map_mem sel _ tmp k hsel_nodup hks,
          Function.update_noteq hk0, ← htmp_sum k]
        rw [zero_add]
      · rw [addIntoF_not_mem _ _ _ _ hks, Function.update_noteq hk0]
        have hle : tmp k ≤ 0 := by
          by_contra hgt
          push_neg at hgt
          exact hks ((hsel_mem k).mpr ⟨⟨by omega, hk⟩, hgt⟩)
        have heq : tmp k = 0 := le_antisymm hle (htmp_nonneg k)
        rw [← htmp_sum k, heq]
  · rw [if_neg hg] at hm
    exact Option.noConfusion hm

/-- C4: for every MIDDLE child of a three-way branch, the single
installed LP row has sense equal and right-hand side 1, the dummy column 0
receives coefficient 1, and at every other column the row's dense
coefficient equals the column-wise sum of the dense per-edge coefficient
vectors the oracle returned for the two edges (provided those coefficients
are non-negative, as visit counts are). -/
theorem c4_middleRowMerged (O : NodeOracle) (sym : Bool) (cnt gidx : Nat)
    (node : BbNode) (e1 e2 : Edge) (cs : List BbNode)
    (p : BbNode) (ch : List BbNode) (c2 g2 : Nat)
    (hterm : node.if_terminate = false)
    (hcnt : cnt + 1 ≤ MAX_3WAY_ROUNDS)
    (h : imposeThreeBranching O sym cnt gidx node [e1, e2] cs = some (p, ch, c2, g2))
    (hv1 : ∀ v ∈ (O.obtainBrcCoefficient (middleChildBase sym node e1 e2 gidx) e1).2,
      0 ≤ v)
    (hv2 : ∀ v ∈ (O.obtainBrcCoefficient (middleChildBase sym node e1 e2 gidx) e2).2,
      0 ≤ v) :
    ∃ C r, ch.get? 2 = some C ∧ C.solver.rows.getLast? = some r ∧
      r.sense = Sense.eq ∧ r.rhs = 1 ∧
      (List.range node.solver.numCol).map (rowCoefAt r) =
        (List.range node.solver.numCol).map (fun k =>
          if k = 0 then 1
          else coefAt (O.obtainBrcCoefficient (middleChildBase sym node e1 e2 gidx) e1) k +
            coefAt (O.obtainBrcCoefficient (middleChildBase sym node e1 e2 gidx) e2) k) := by
  rcases hM : middleChild O sym node e1 e2 gidx with _ | C
  · simp [imposeThreeBranching, hterm, hcnt, hM] at h
  · simp [imposeThreeBranching, hterm, hcnt, hM] at h
    obtain ⟨-, hch, -, -⟩ := h
    have hMC := hM
    simp only [middleChild] at hMC
    rcases hmm : mergeMiddle node.solver.numCol
        (O.obtainBrcCoefficient (middleChildBase sym node e1 e2 gidx) e1).1
        (O.obtainBrcCoefficient (middleChildBase sym node e1 e2 gidx) e1).2
        (O.obtainBrcCoefficient (middleChildBase sym node e1 e2 gidx) e2).1
        (O.obtainBrcCoefficient (middleChildBase sym node e1 e2 gidx) e2).2
      with _ | cc <;> rw [hmm] at hMC
    · exact absurd hMC (by simp)
    · rw [Option.some_inj] at hMC
      refine ⟨C, ⟨cc.1, cc.2, Sense.eq, 1⟩, ?_, ?_, rfl, rfl, ?_⟩
      · rw [← hch]
        rfl
      · rw [← hMC]
        simp
      · rw [List.map_inj_left]
        intro k hk
        rw [List.mem_range] at hk
        exact mergeMiddle_rowDense node.solver.numCol _ _ _ _ cc.1 cc.2
          (by rw [hmm]) hv1 hv2 k hk

/-- C4 witness: the merged-row theorem instantiated at the concrete base
node and oracle. -/
theorem c4_middleRowMerged_witness :
    ∃ p ch c2 g2,
      imposeThreeBranching baseOracle true 0 0 baseNode [(1, 2), (3, 4)] [] =
        some (p, ch, c2, g2) ∧
      ∃ C r, ch.get? 2 = some C ∧ C.solver.rows.getLast? = some r ∧
        r.sense = Sense.eq ∧ r.rhs = 1 := by
  rcases hR : imposeThreeBranching baseOracle true 0 0 baseNode [(1, 2), (3, 4)] []
    with _ | ⟨p, ch, c2, g2⟩
  · have hS : (imposeThreeBranching baseOracle true 0 0 baseNode
        [(1, 2), (3, 4)] []).isSome = true := by decide
    rw [hR] at hS
    exact absurd hS (by decide)
  · obtain ⟨C, r, h1, h2, h3, h4, -⟩ := c4_middleRowMerged baseOracle true 0 0 baseNode
      (1, 2) (3, 4) [] p ch c2 g2 rfl (by decide) hR (by decide) (by decide)
    exact ⟨p, ch, c2, g2, rfl, C, r, h1, h2, h3, h4⟩

/-! Lemmas for the top-two candidate selection. -/

theorem perm_insertDesc {α : Type} (cmap : α → ℚ) (a : α) (l : List α) :
    (insertDesc cmap a l).Perm (a :: l) := by
  induction l with
  | nil => exact List.Perm.refl [a]
  | cons b t ih =>
    rw [insertDesc]
    by_cases h : cmap b ≤ cmap a
    · rw [if_pos h]
    · rw [if_neg h]
      exact List.Perm.trans (List.Perm.cons b ih) (List.Perm.swap a b t)

theorem perm_sortDesc {α : Type} (cmap : α → ℚ) (l : List α) :
    (sortDesc cmap l).Perm l := by
  induction l with
  | nil => exact List.Perm.refl []
  | cons a t ih =>
    rw [sortDesc]
    exact List.Perm.trans (perm_insertDesc cmap a (sortDesc cmap t)) (List.Perm.cons a ih)

theorem sorted_insertDesc {α : Type} (cmap : α → ℚ) (a : α) (l : List α)
    (h : l.Sorted (fun x y => cmap y ≤ cmap x)) :
    (insertDesc cmap a l).Sorted (fun x y => cmap y ≤ cmap x) := by
  induction l with
  | nil => simp [insertDesc]
  | cons b t ih =>
    rw [insertDesc]
    rw [List.sorted_cons] at h
    by_cases hba : cmap b ≤ cmap a
    · rw [if_pos hba]
      rw [List.sorted_cons]
      refine ⟨?_, List.sorted_cons.mpr h⟩
      intro x hx
      rcases List.mem_cons.mp hx with hx | hx
      · rw [hx]
        exact hba
      · exact le_trans (h.1 x hx) hba
    · rw [if_neg hba]
      rw [List.sorted_cons]
      refine ⟨?_, ih h.2⟩
      intro x hx
      have hx' : x ∈ a :: t := (perm_insertDesc cmap a t).subset hx
      rcases List.mem_cons.mp hx' with hx' | hx'
      · rw [hx']
        exact le_of_lt (lt_of_not_le hba)
      · exact h.1 x hx'

theorem sorted_sortDesc {α : Type} (cmap : α → ℚ) (l : List α) :
    (sortDesc cmap l).Sorted (fun x y => cmap y ≤ cmap x) := by
  induction l with
  | nil => simp [sortDesc]
  | cons a t ih =>
    rw [sortDesc]
    exact sorted_insertDesc cmap a _ ih

theorem nonSumChk_symm {α : Type} (cmap : α → ℚ) (a b : α) :
    nonSumChk cmap a b = nonSumChk cmap b a := by
  rw [nonSumChk, nonSumChk, add_comm]

theorem findNonSumPair_some {α : Type} [DecidableEq α] (cmap : α → ℚ) (l : List α)
    (a b : α) (h : findNonSumPair cmap l = some (a, b)) :
    a ∈ l ∧ b ∈ l.erase a ∧ nonSumChk cmap a b = true := by
  induction l with
  | nil => exact Option.noConfusion h
  | cons c t ih =>
    rw [findNonSumPair] at h
    rcases hf : findPartnerNS cmap c t with _ | w <;> rw [hf] at h
    · obtain ⟨h1, h2, h3⟩ := ih h
      refine ⟨List.mem_cons_of_mem c h1, ?_, h3⟩
      by_cases hac : a = c
      · subst hac
        rw [List.erase_cons_head]
        exact List.mem_of_mem_erase h2
      · rw [List.erase_cons_tail (by simpa using Ne.symm hac)]
        exact List.mem_cons_of_mem c h2
    · rw [Option.some_inj] at h
      injection h with hc hw
      refine ⟨?_, ?_, ?_⟩
      · rw [← hc]
        exact List.mem_cons_self c t
      · rw [← hc, ← hw, List.erase_cons_head]
        exact List.mem_of_find?_eq_some hf
      · rw [← hc, ← hw]
        have := List.find?_some hf
        simpa using this

theorem findNonSumPair_none {α : Type} [DecidableEq α] (cmap : α → ℚ) (l : List α)
    (h : findNonSumPair cmap l = none) :
    ∀ a ∈ l, ∀ b ∈ l.erase a, nonSumChk cmap a b = false := by
  induction l with
  | nil =>
    intro a ha
    simp at ha
  | cons c t ih =>
    rw [findNonSumPair] at h
    rcases hf : findPartnerNS cmap c t with _ | w <;> rw [hf] at h
    · have hnone : ∀ x ∈ t, nonSumChk cmap c x = false := by
        intro x hx
        have := List.find?_eq_none.mp hf x hx
        simpa using this
      intro a ha b hb
      by_cases hac : a = c
      · subst hac
        rw [List.erase_cons_head] at hb
        exact hnone b hb
      · have hat : a ∈ t := (List.mem_cons.mp ha).resolve_left hac
        rw [List.erase_cons_tail (by simpa using Ne.symm hac)] at hb
        rcases List.mem_cons.mp hb with hbc | hbt
        · subst hbc
          rw [nonSumChk_symm]
          exact hnone a hat
        · exact ih h a hat b hbt
    · exact Option.noConfusion h

/-- C5: for every candidate map over the ranked list, getTopTwoCandidates
returns two candidates whose mapped LP values do not sum to one within
tolerance a billionth whenever two such positions exist among the ranked
candidates; when no such pair exists it returns the top two candidates of
a descending ordering of the ranked list by mapped value. -/
theorem c5_topTwoCandidates {α : Type} [DecidableEq α] (cmap : α → ℚ) (pairs : List α)
    (h2 : 2 ≤ pairs.length) :
    ((∃ a ∈ pairs, ∃ b ∈ pairs.erase a, nonSumChk cmap a b = true) →
      ∃ a b, getTopTwoCandidates cmap pairs = [a, b] ∧ a ∈ pairs ∧ b ∈ pairs.erase a ∧
        nonSumChk cmap a b = true) ∧
    ((∀ a ∈ pairs, ∀ b ∈ pairs.erase a, nonSumChk cmap a b = false) →
      ∃ l, pairs.Perm l ∧ l.Sorted (fun x y => cmap y ≤ cmap x) ∧
        getTopTwoCandidates cmap pairs = l.take 2) := by
  have hperm : (sortDesc cmap pairs).Perm pairs := perm_sortDesc cmap pairs
  constructor
  · rintro ⟨a, ha, b, hb, hab⟩
    rcases hfp : findNonSumPair cmap (sortDesc cmap pairs) with _ | ⟨qa, qb⟩
    · exfalso
      have hnone := findNonSumPair_none cmap _ hfp
      have ha' : a ∈ sortDesc cmap pairs := hperm.symm.subset ha
      have hb' : b ∈ (sortDesc cmap pairs).erase a := (hperm.erase a).symm.subset hb
      rw [hnone a ha' b hb'] at hab
      exact Bool.noConfusion hab
    · obtain ⟨hq1, hq2, hq3⟩ := findNonSumPair_some cmap _ qa qb hfp
      refine ⟨qa, qb, ?_, hperm.subset hq1, (hperm.erase qa).subset hq2, hq3⟩
      simp [getTopTwoCandidates, hfp]
  · intro hno
    refine ⟨sortDesc cmap pairs, hperm.symm, sorted_sortDesc cmap pairs, ?_⟩
    have hfn : findNonSumPair cmap (sortDesc cmap pairs) = none := by
      rcases hfp : findNonSumPair cmap (sortDesc cmap pairs) with _ | ⟨qa, qb⟩
      · rfl
      · obtain ⟨hq1, hq2, hq3⟩ := findNonSumPair_some cmap _ qa qb hfp
        rw [hno qa (hperm.subset hq1) qb ((hperm.erase qa).subset hq2)] at hq3
        exact Bool.noConfusion hq3
    have hlen : 2 ≤ (sortDesc cmap pairs).length := by
      rw [hperm.length_eq]
      exact h2
    rcases hs : sortDesc cmap pairs with _ | ⟨x, xt⟩
    · rw [hs] at hlen
      simp at hlen
    · rcases xt with _ | ⟨y, rest⟩
      · rw [hs] at hlen
        simp at hlen
      · rw [hs] at hfn
        simp [getTopTwoCandidates, hs, hfn]

/-- C5 witness: the selector theorem instantiated at a concrete
two-candidate map whose values do not sum to one. -/
theorem c5_topTwoCandidates_witness :
    ∃ a b, getTopTwoCandidates (fun n : Nat => (n : ℚ)) [1, 2] = [a, b] ∧
      a ∈ [1, 2] ∧ b ∈ List.erase [1, 2] a ∧
      nonSumChk (fun n : Nat => (n : ℚ)) a b = true :=
  (c5_topTwoCandidates (fun n : Nat => (n : ℚ)) [1, 2] (by decide)).1
    ⟨1, by decide, 2, by decide, by norm_num [nonSumChk, ratAbs, tol9]⟩

/-! Lemmas for the three-way scorer scan. -/

theorem foldl_gbte_skip (tol : ℚ) (oneMap : Edge → ℚ) (L : List ((Edge × Edge) × ℚ)) :
    ∀ st, (∀ e ∈ L, skipEntry tol oneMap e = true) →
      L.foldl (gbteStep tol oneMap) st = st := by
  induction L with
  | nil =>
    intro st _
    rfl
  | cons e t ih =>
    intro st h
    rw [List.foldl_cons]
    have hstep : gbteStep tol oneMap st e = st := by
      rw [gbteStep, if_pos (h e (List.mem_cons_self e t))]
    rw [hstep]
    exact ih st (fun x hx => h x (List.mem_cons_of_mem e hx))

theorem gbteStep_len2 (tol : ℚ) (oneMap : Edge → ℚ) (st : ℚ × List Edge)
    (e : (Edge × Edge) × ℚ) (h : st.2.length = 2) :
    (gbteStep tol oneMap st e).2.length = 2 := by
  rw [gbteStep]
  split_ifs <;> simp [h]

theorem foldl_gbte_len2 (tol : ℚ) (oneMap : Edge → ℚ) (L : List ((Edge × Edge) × ℚ)) :
    ∀ st, st.2.length = 2 → (L.foldl (gbteStep tol oneMap) st).2.length = 2 := by
  induction L with
  | nil =>
    intro st h
    exact h
  | cons e t ih =>
    intro st h
    rw [List.foldl_cons]
    exact ih _ (gbteStep_len2 tol oneMap st e h)

theorem edgeScore_gt_bestInit (tol : ℚ) (oneMap : Edge → ℚ) (e : (Edge × Edge) × ℚ)
    (htol : 0 < tol) (hp : skipEntry tol oneMap e = false) :
    bestInit < edgeScore oneMap e := by
  simp only [skipEntry, Bool.or_eq_false_iff, decide_eq_false_iff_not, not_lt] at hp
  obtain ⟨⟨⟨⟨⟨h1, h2⟩, h3⟩, h4⟩, h5⟩, h6⟩ := hp
  rw [edgeScore, bestInit]
  have hm : (0 : ℚ) ≤ min (min (oneMap e.1.1) (1 - oneMap e.1.1))
      (min (oneMap e.1.2) (1 - oneMap e.1.2)) := by
    refine le_min (le_min ?_ ?_) (le_min ?_ ?_) <;> linarith
  have habs : ratAbs (e.2 - 3 / 2) ≤ 3 / 2 := by
    rw [ratAbs_eq_abs, abs_le]
    constructor <;> linarith
  have hpow : ((10 : ℚ) ^ 300) ≥ 10 := by
    calc (10 : ℚ) ^ 300 ≥ 10 ^ 1 := by
          refine pow_le_pow_right₀ ?_ ?_ <;> norm_num
      _ = 10 := pow_one 10
  nlinarith [hm, habs, hpow]

theorem gbteStep_Q (tol : ℚ) (oneMap : Edge → ℚ) (st : ℚ × List Edge)
    (e : (Edge × Edge) × ℚ)
    (h : (st.2 = [] ∧ st.1 = bestInit) ∨ st.2.length = 2) :
    ((gbteStep tol oneMap st e).2 = [] ∧ (gbteStep tol oneMap st e).1 = bestInit) ∨
      (gbteStep tol oneMap st e).2.length = 2 := by
  rw [gbteStep]
  split_ifs with h1 h2
  · exact h
  · right
    rfl
  · exact h

theorem gbteStep_pass_len2 (tol : ℚ) (oneMap : Edge → ℚ) (st : ℚ × List Edge)
    (e : (Edge × Edge) × ℚ) (htol : 0 < tol)
    (hQ : (st.2 = [] ∧ st.1 = bestInit) ∨ st.2.length = 2)
    (hp : skipEntry tol oneMap e = false) :
    (gbteStep tol oneMap st e).2.length = 2 := by
  rcases hQ with ⟨-, hbest⟩ | h2
  · rw [gbteStep, if_neg (by rw [hp]; exact Bool.false_ne_true),
      if_pos (by rw [hbest]; exact edgeScore_gt_bestInit tol oneMap e htol hp)]
    rfl
  · exact gbteStep_len2 tol oneMap st e h2

theorem foldl_gbte_pass (tol : ℚ) (oneMap : Edge → ℚ) (L : List ((Edge × Edge) × ℚ))
    (htol : 0 < tol) :
    ∀ st, ((st.2 = [] ∧ st.1 = bestInit) ∨ st.2.length = 2) →
      (∃ e ∈ L, skipEntry tol oneMap e = false) →
      (L.foldl (gbteStep tol oneMap) st).2.length = 2 := by
  induction L with
  | nil =>
    intro st _ hex
    obtain ⟨e, he, -⟩ := hex
    exact absurd he (List.not_mem_nil e)
  | cons e t ih =>
    intro st hQ hex
    rw [List.foldl_cons]
    by_cases hp : skipEntry tol oneMap e = false
    · exact foldl_gbte_len2 tol oneMap t _ (gbteStep_pass_len2 tol oneMap st e htol hQ hp)
    · have hskip : skipEntry tol oneMap e = true := by
        revert hp
        cases skipEntry tol oneMap e <;> simp
      obtain ⟨x, hx, hxf⟩ := hex
      rcases List.mem_cons.mp hx with hxe | hxt
      · rw [hxe] at hxf
        rw [hxf] at hskip
        exact Bool.noConfusion hskip
      · have hst : gbteStep tol oneMap st e = st := by
          rw [gbteStep, if_pos hskip]
        rw [hst]
        exact ih st hQ ⟨x, hxt, hxf⟩

/-- C9: imposeThreeBranching requires an edge pair of size two (the
assertion aborts otherwise, modelled as none), but the installed selector
getBestTwoEdges returns the empty list exactly when the pair map is empty
or every pair entry is filtered by the fractional tolerance band; every
non-empty result has length two; and on the concrete empty pair map the
selector output violates the branching operator's precondition. -/
theorem c9_selectorPreconditionMismatch :
    (∀ (tol : ℚ) (oneMap : Edge → ℚ) (comboMap : List ((Edge × Edge) × ℚ)), 0 < tol →
      (getBestTwoEdges tol oneMap comboMap = [] ↔
        ∀ e ∈ comboMap, skipEntry tol oneMap e = true)) ∧
    (∀ (tol : ℚ) (oneMap : Edge → ℚ) (comboMap : List ((Edge × Edge) × ℚ)), 0 < tol →
      getBestTwoEdges tol oneMap comboMap = [] ∨
        (getBestTwoEdges tol oneMap comboMap).length = 2) ∧
    (∀ (O : NodeOracle) (sym : Bool) (cnt gidx : Nat) (node : BbNode)
        (cs : List BbNode),
      imposeThreeBranching O sym cnt gidx node [] cs = none) ∧
    getBestTwoEdges (1 / 1000000) (fun _ => 1 / 2) [] = [] ∧
    imposeThreeBranching baseOracle true 0 0 baseNode [] [] = none := by
  have hmain : ∀ (tol : ℚ) (oneMap : Edge → ℚ)
      (comboMap : List ((Edge × Edge) × ℚ)), 0 < tol →
      (getBestTwoEdges tol oneMap comboMap = [] ↔
        ∀ e ∈ comboMap, skipEntry tol oneMap e = true) := by
    intro tol oneMap comboMap htol
    by_cases hemp : comboMap.isEmpty
    · rw [List.isEmpty_iff] at hemp
      subst hemp
      constructor
      · intro _ e he
        exact absurd he (List.not_mem_nil e)
      · intro _
        rfl
    · rw [getBestTwoEdges, if_neg hemp]
      constructor
      · intro hres
        by_contra hnall
        push_neg at hnall
        obtain ⟨e, he, hne⟩ := hnall
        have hp : skipEntry tol oneMap e = false := by
          revert hne
          cases skipEntry tol oneMap e <;> simp
        have := foldl_gbte_pass tol oneMap comboMap htol (bestInit, [])
          (Or.inl ⟨rfl, rfl⟩) ⟨e, he, hp⟩
        rw [hres] at this
        exact absurd this (by simp)
      · intro hall
        rw [foldl_gbte_skip tol oneMap comboMap _ hall]
  refine ⟨hmain, ?_, ?_, ?_, rfl⟩
  · intro tol oneMap comboMap htol
    by_cases hres : getBestTwoEdges tol oneMap comboMap = []
    · exact Or.inl hres
    · right
      have hne : ¬∀ e ∈ comboMap, skipEntry tol oneMap e = true := by
        intro hall
        exact hres ((hmain tol oneMap comboMap htol).mpr hall)
      push_neg at hne
      obtain ⟨e, he, hnx⟩ := hne
      have hp : skipEntry tol oneMap e = false := by
        revert hnx
        cases skipEntry tol oneMap e <;> simp
      have hemp : ¬comboMap.isEmpty := by
        intro habs
        rw [List.isEmpty_iff] at habs
        subst habs
        exact absurd he (List.not_mem_nil e)
      rw [getBestTwoEdges, if_neg hemp]
      exact foldl_gbte_pass tol oneMap comboMap htol (bestInit, [])
        (Or.inl ⟨rfl, rfl⟩) ⟨e, he, hp⟩
  · intro O sym cnt gidx node cs
    rfl
  · rfl

/-- C9 witness: the characterization applied at a concrete pair map whose
single entry is outside the fractional band, together with the concrete
assertion violation. -/
theorem c9_selectorPreconditionMismatch_witness :
    getBestTwoEdges (1 / 1000000) (fun _ => 1 / 2) [(((1, 2), (3, 4)), 2)] = [] ∧
    imposeThreeBranching baseOracle true 0 0 baseNode [] [] = none := by
  have h := c9_selectorPreconditionMismatch
  refine ⟨(h.1 (1 / 1000000) (fun _ => 1 / 2) [(((1, 2), (3, 4)), 2)] (by norm_num)).mpr
    ?_, h.2.2.2.2⟩
  intro e he
  rw [List.mem_singleton] at he
  subst he
  simp only [skipEntry, Bool.or_eq_true, decide_eq_true_eq]
  norm_num

end RouteOpt
